import Mathlib

/-!
Verification development for the dogechain repository: the skeleton
block-sync helpers (protocol/skeleton.go), the IBFT block-packing loop,
the round-change certificate logic, the sync-state exit transition and
the hook dispatch (consensus/ibft), as shallow embeddings in Lean.
-/

namespace Dogechain

/-- types.Header restricted to the fields the skeleton code reads
(Number, Hash, TxRoot).  `number` carries a uint64 value; hashes and
roots are abstracted to natural-number identifiers. -/
structure Header where
  number : Nat
  hash : Nat
  txRoot : Nat
deriving DecidableEq

/-- types.EmptyRootHash, an arbitrary distinguished root value. -/
def emptyRootHash : Nat := 0

/-- types.Block restricted to Header and Transactions (transactions are
abstracted to identifiers). -/
structure Block where
  header : Header
  transactions : List Nat
deriving DecidableEq

/-- protocol.slot: anchor hash, number and the filled blocks. -/
structure Slot where
  hash : Nat
  number : Nat
  blocks : List Block
deriving DecidableEq

/-- protocol.skeleton; the `span` and `num` fields are not read by the
operations verified here and are omitted. -/
structure Skeleton where
  slots : List Slot
deriving DecidableEq

/-- uint64 subtraction with wrap-around, as Go evaluates `a - b` on
uint64 operands (exact for `a, b < 2^64`). -/
def u64Sub (a b : Nat) : Nat := (a + (2 ^ 64 - b % 2 ^ 64)) % 2 ^ 64

/-- The loop body of skeleton.addSkeleton: walking the headers from the
second one on, `diff` starts at 0, is assigned the current element
difference while it is still 0, and afterwards every element difference
must equal it (`bad diff` otherwise). -/
def skeletonDiffLoop : Nat → Header → List Header → Bool
  | _, _, [] => true
  | diff, prev, h :: rest =>
    let elemDiff := u64Sub h.number prev.number
    if diff = 0 then skeletonDiffLoop elemDiff h rest
    else if elemDiff ≠ diff then false
    else skeletonDiffLoop diff h rest

/-- The stride check performed by skeleton.addSkeleton over the whole
header list (the Go loop starts at index 1). -/
def skeletonDiffOk : List Header → Bool
  | [] => true
  | h :: rest => skeletonDiffLoop 0 h rest

/-- The slot built for one header by skeleton.addSkeleton. -/
def mkSlot (h : Header) : Slot := { hash := h.hash, number := h.number, blocks := [] }

/-- skeleton.addSkeleton: validate the stride, then fill one slot per
header; `none` models the `bad diff` error return. -/
def addSkeleton (headers : List Header) : Option (List Slot) :=
  if skeletonDiffOk headers then some (headers.map mkSlot) else none

/-- Consecutive header-number differences starting from a given previous
header (uint64 wrap-around, as in the Go code). -/
def headerDiffsFrom (prev : Header) : List Header → List Nat
  | [] => []
  | h :: rest => u64Sub h.number prev.number :: headerDiffsFrom h rest

/-- The list of consecutive header-number differences of a header list. -/
def headerDiffs : List Header → List Nat
  | [] => []
  | h :: rest => headerDiffsFrom h rest

/-- Spec-side notion used by the claim: all consecutive differences are
equal ("uniform stride"). -/
def allEqualNat : List Nat → Bool
  | [] => true
  | d :: rest => rest.all (fun x => x == d)

/-- The claim's uniform-stride condition on a header list. -/
def specUniformStride (headers : List Header) : Bool := allEqualNat (headerDiffs headers)

/-- The stride condition the code actually accepts: zero differences
occurring before the first nonzero difference are ignored; the first
nonzero difference fixes the required stride and every later difference
must equal it. -/
def acceptedOf (ds : List Nat) : Bool :=
  match ds.dropWhile (fun x => x == 0) with
  | [] => true
  | d :: rest => rest.all (fun x => x == d)

/-- `acceptedOf` applied to the consecutive differences of a header list. -/
def acceptedStride (headers : List Header) : Bool := acceptedOf (headerDiffs headers)

/-- skeleton.LastHeader, embedded as an Option-returning function: the
Go code indexes `s.slots[len(s.slots)-1]` and
`slot.blocks[len(slot.blocks)-1]` without guards; `none` marks the
inputs on which the Go code would panic. -/
def lastHeader? (s : Skeleton) : Option Header :=
  match s.slots.getLast? with
  | none => none
  | some slot =>
    match slot.blocks.getLast? with
    | none => none
    | some b => some b.header

/-- Modelled from the spec: Ibft.shouldWriteTransactions (the function
itself lives in consensus/ibft/ibft.go, which is not part of the
sources; only its test is).  Per the spec it "returns true if any
mechanism permits"; each registered mechanism is abstracted to its
ShouldWriteTransactions predicate on the height. -/
def shouldWriteTransactions (mechanisms : List (Nat → Bool)) (height : Nat) : Bool :=
  mechanisms.any (fun m => m height)

/-- The errors protocol.getHeaders can produce after a successful RPC
call: ErrNilHeaderResponse for a nil object or nil payload, or the
error returned by Header.UnmarshalRLP on a payload that does not
decode. -/
inductive HeadersError where
  | nilHeaderResponse
  | decodeError
deriving DecidableEq

/-- One element of resp.Objs: `none` models a nil object, `some none`
models an object with nil Spec, `some (some v)` models a payload `v`
(RLP bytes abstracted to an identifier). -/
abbrev HeaderObj := Option (Option Nat)

/-- Whether the Go condition `obj == nil || obj.Spec == nil` holds. -/
def nilObj : HeaderObj → Bool
  | none => true
  | some none => true
  | some (some _) => false

/-- protocol.getHeaders after a successful RPC call, parameterised by the
RLP decoder `dec` (Header.UnmarshalRLP is external): walk the response
objects in order; on the first nil object or nil payload return
ErrNilHeaderResponse, on the first undecodable payload return that
decode error, otherwise collect one header per object. -/
def getHeaders (dec : Nat → Option Header) : List HeaderObj → Except HeadersError (List Header)
  | [] => .ok []
  | obj :: rest =>
    match obj with
    | none => .error .nilHeaderResponse
    | some none => .error .nilHeaderResponse
    | some (some v) =>
      match dec v with
      | none => .error .decodeError
      | some h =>
        match getHeaders dec rest with
        | .error e => .error e
        | .ok hs => .ok (h :: hs)

/-- The header extracted from a response object, when the object is
non-nil and its payload decodes. -/
def decObj (dec : Nat → Option Header) : HeaderObj → Option Header
  | some (some v) => dec v
  | _ => none

/-- A decoder used for the concrete counterexample and witness: the
payload 0 does not decode (UnmarshalRLP fails on it), every other
payload v decodes to a header with number and hash v. -/
def decEx : Nat → Option Header :=
  fun v => if v = 0 then none else some ⟨v, v, 0⟩

/-- Assignment `slot.blocks[idx].Transactions = txs` on a block list
(identity when the index is out of range, which the verified calls never
hit). -/
def setBlockTxs : List Block → Nat → List Nat → List Block
  | [], _, _ => []
  | b :: bs, 0, txs => { b with transactions := txs } :: bs
  | b :: bs, n + 1, txs => b :: setBlockTxs bs n txs

/-- The final loop of skeleton.fillSlot: write each returned body's
transactions into the block at the recorded index. -/
def assignBodies : List Block → List (Nat × List Nat) → List Block
  | blocks, [] => blocks
  | blocks, (idx, body) :: rest => assignBodies (setBlockTxs blocks idx body) rest

/-- Result of fillSlot: the filled blocks of the slot and the list of
hash batches requested through getBodies (empty when no request was
made). -/
structure FillResult where
  blocks : List Block
  bodyRequests : List (List Nat)
deriving DecidableEq

/-- The Go condition `h.TxRoot != types.EmptyRootHash`. -/
def nonEmptyRoot (h : Header) : Bool := h.txRoot != emptyRootHash

/-- fillSlot's bodyHashes: the hashes of the fetched headers with a
non-empty transaction root, in response order. -/
def bodyHashesOf (resp : List Header) : List Nat :=
  ((resp.enum).filter (fun p => nonEmptyRoot p.2)).map (fun p => p.2.hash)

/-- fillSlot's bodyIndex: the positions (in the fetched header list) of
the headers with a non-empty transaction root, in response order. -/
def bodyIndexOf (resp : List Header) : List Nat :=
  ((resp.enum).filter (fun p => nonEmptyRoot p.2)).map (fun p => p.1)

/-- skeleton.fillSlot from the point where the header range `resp` for
the slot has been fetched: build one block per header, and when some
header has a non-empty transaction root, request the bodies for exactly
those headers (getBodies abstracts the peer) and write the i-th body
into the block recorded by the i-th index. -/
def fillSlot (getBodies : List Nat → List (List Nat)) (resp : List Header) : FillResult :=
  let blocks := resp.map (fun h => { header := h, transactions := [] })
  if (bodyHashesOf resp).length = 0 then
    { blocks := blocks, bodyRequests := [] }
  else
    let bodies := getBodies (bodyHashesOf resp)
    { blocks := assignBodies blocks ((bodyIndexOf resp).zip bodies),
      bodyRequests := [bodyHashesOf resp] }

/-- Per-transaction outcome reported by the executor when the packer
applies a transaction (spec section 4.3: success, failed-with-receipt,
gas-limit-reached, not-executable; a recoverable application error
demotes instead of dropping, matching the shouldDemoteTxs return of
writeTransactions). -/
inductive ExecResult where
  | success
  | failedWithReceipt
  | gasLimitReached
  | notExecutable
  | recoverable
deriving DecidableEq

/-- types.Transaction restricted to the fields the packer reads. -/
structure Tx where
  sender : Nat
  nonce : Nat
  gasPrice : Nat
  gas : Nat
deriving DecidableEq

/-- The heap key of a sender queue: (gas price, sender address) of its
head (spec section 4.3: max-heap keyed by (gas-price, sender-address)). -/
def headKey : List Tx → Nat × Nat
  | [] => (0, 0)
  | t :: _ => (t.gasPrice, t.sender)

/-- Lexicographic comparison of heap keys. -/
def keyLe (a b : Nat × Nat) : Bool :=
  decide (a.1 < b.1) || (a.1 == b.1 && decide (a.2 ≤ b.2))

/-- Pop the best-keyed sender queue off the pool snapshot, returning it
together with the remaining queues (the heap extraction of the greedy
packer). -/
def pickBest : List (List Tx) → Option (List Tx × List (List Tx))
  | [] => none
  | q :: qs =>
    match pickBest qs with
    | none => some (q, [])
    | some (best, others) =>
      if keyLe (headKey best) (headKey q) then some (q, best :: others)
      else some (best, q :: others)

/-- The three transaction lists returned by Ibft.writeTransactions plus
the failed receipts it writes through the transition. -/
structure PackResult where
  included : List Tx
  shouldDrop : List Tx
  shouldDemote : List Tx
  failedReceipts : List Tx
deriving DecidableEq

/-- Modelled from the spec: the loop of Ibft.writeTransactions
(consensus/ibft/ibft.go is not under src/; only its test is).  Spec
section 4.3 with the test constraints of TestIBFT_WriteTransactions:
a head whose own gas exceeds the block gas limit gets a failed receipt,
goes on the drop list and its sender is skipped for this block; a head
the executor rejects as gas-limit-reached (insufficient remaining block
gas) is skipped for the block with its sender but retained in the pool;
a not-executable head goes on the drop list and its sender is skipped; a
recoverable error demotes; success and failed-with-receipt outcomes are
included and the sender's next transaction re-enters the heap.  The
fuel argument only bounds the iteration count; writeTransactions always
passes enough of it. -/
def writeTxLoop (write : Tx → ExecResult) (gasLimit : Nat) :
    Nat → List (List Tx) → PackResult → PackResult
  | 0, _, acc => acc
  | fuel + 1, queues, acc =>
    match pickBest queues with
    | none => acc
    | some (q, others) =>
      match q with
      | [] => writeTxLoop write gasLimit fuel others acc
      | tx :: rest =>
        if gasLimit < tx.gas then
          writeTxLoop write gasLimit fuel others
            { acc with shouldDrop := acc.shouldDrop ++ [tx],
                       failedReceipts := acc.failedReceipts ++ [tx] }
        else
          match write tx with
          | .success =>
            writeTxLoop write gasLimit fuel (others ++ [rest])
              { acc with included := acc.included ++ [tx] }
          | .failedWithReceipt =>
            writeTxLoop write gasLimit fuel (others ++ [rest])
              { acc with included := acc.included ++ [tx] }
          | .gasLimitReached =>
            writeTxLoop write gasLimit fuel others acc
          | .notExecutable =>
            writeTxLoop write gasLimit fuel others
              { acc with shouldDrop := acc.shouldDrop ++ [tx] }
          | .recoverable =>
            writeTxLoop write gasLimit fuel others
              { acc with shouldDemote := acc.shouldDemote ++ [tx] }

/-- Upper bound on the number of loop iterations: every iteration
removes a transaction or a queue. -/
def packMeasure (queues : List (List Tx)) : Nat :=
  (queues.map List.length).sum + queues.length

/-- Ibft.writeTransactions on a pool snapshot grouped into per-sender
nonce-ascending queues. -/
def writeTransactions (write : Tx → ExecResult) (gasLimit : Nat)
    (queues : List (List Tx)) : PackResult :=
  writeTxLoop write gasLimit (packMeasure queues) queues ⟨[], [], [], []⟩

/-- Transaction `t'` sits behind `tx` in the queue: the queue splits as
a ++ tx :: b ++ t' :: c. -/
def OccursBlocked (tx t' : Tx) (q : List Tx) : Prop :=
  ∃ a b c, q = a ++ tx :: b ++ t' :: c

/-- Outcomes the packer includes in the block. -/
def IncludedOutcome (r : ExecResult) : Prop := r = .success ∨ r = .failedWithReceipt

/-- The IBFT states (consensus/ibft). -/
inductive IbftState where
  | acceptState
  | validateState
  | roundChangeState
  | syncState
deriving DecidableEq

/-- A RoundChange message: view (sequence, round) plus the recovered
sender address (abstracted to a natural number). -/
structure RCMessage where
  sequence : Nat
  round : Nat
  sender : Nat
deriving DecidableEq

/-- The consensus state read and written while in RoundChangeState:
current IBFT state, the local view (sequence, round), this node's
address, the validator set, and the per-round deduplicated RoundChange
sender sets. -/
structure RCState where
  current : IbftState
  sequence : Nat
  round : Nat
  self : Nat
  validators : List Nat
  roundMessages : List (Nat × List Nat)
deriving DecidableEq

/-- The sender set recorded for a round. -/
def sendersAt : List (Nat × List Nat) → Nat → List Nat
  | [], _ => []
  | (r, l) :: rest, r2 => if r = r2 then l else sendersAt rest r2

/-- ValidatorSet.MaxFaultyNodes: (N - 1) / 3. -/
def maxFaultyNodes (s : RCState) : Nat := (s.validators.length - 1) / 3

/-- currentState.NumValid, the strong-certificate count of RoundChange
messages received from other validators: 2 * MaxFaultyNodes (the node's
own message is implicit, which is what makes
TestTransition_RoundChangeState_CatchupRound reach AcceptState after
two messages out of four validators with a single outgoing message). -/
def numValid (s : RCState) : Nat := 2 * maxFaultyNodes s

/-- currentState.AddRoundMessage: record the sender under the message's
round (deduplicated) and return the number of distinct senders seen for
that round. -/
def addRoundMessage (s : RCState) (m : RCMessage) : RCState × Nat :=
  let cur := sendersAt s.roundMessages m.round
  let cur2 := if m.sender ∈ cur then cur else cur ++ [m.sender]
  ({ s with roundMessages :=
      (m.round, cur2) :: s.roundMessages.filter (fun p => p.1 != m.round) }, cur2.length)

/-- Modelled from the spec: the message-processing step of
Ibft.runRoundChangeState (consensus/ibft/ibft.go is not under src/; only
its tests are).  A message is ignored outside RoundChangeState, for a
different sequence, or from a non-validator; otherwise it is added to
the round's sender set.  Reaching exactly NumValid senders is the strong
certificate: move to AcceptState at the message's round.  Otherwise
reaching exactly MaxFaultyNodes + 1 senders at a round above the local
one is the weak certificate: fast-forward the local round and broadcast
a fresh RoundChange at it (the returned message list). -/
def processRoundChange (s : RCState) (m : RCMessage) : RCState × List RCMessage :=
  if s.current ≠ .roundChangeState then (s, [])
  else if m.sequence ≠ s.sequence then (s, [])
  else if m.sender ∉ s.validators then (s, [])
  else if (addRoundMessage s m).2 = numValid s then
    ({ (addRoundMessage s m).1 with current := .acceptState, round := m.round }, [])
  else if (addRoundMessage s m).2 = maxFaultyNodes s + 1 ∧ s.round < m.round then
    ({ (addRoundMessage s m).1 with round := m.round }, [⟨s.sequence, m.round, s.self⟩])
  else ((addRoundMessage s m).1, [])

/-- Process a list of incoming RoundChange messages in order, collecting
the outgoing broadcasts. -/
def processRoundChangeMsgs : RCState → List RCMessage → RCState × List RCMessage
  | s, [] => (s, [])
  | s, m :: rest =>
    let r1 := processRoundChange s m
    let r2 := processRoundChangeMsgs r1.1 rest
    (r2.1, r1.2 ++ r2.2)

/-- RoundChange messages for one view from a list of senders. -/
def msgsFor (seqNum r : Nat) (senders : List Nat) : List RCMessage :=
  senders.map (fun a => ⟨seqNum, r, a⟩)

/-- The consensus-state fields runSyncState touches. -/
structure SyncIbft where
  current : IbftState
  sequence : Nat
  round : Nat
  locked : Bool
deriving DecidableEq

/-- The local-chain view the sync loop updates: latest header number
plus the header numbers handed to TxPool.ResetWithHeaders (one call per
applied block, latest head only grows, as in MockBlockchain.writeBlock
and the mock syncer handlers). -/
structure SyncEnv where
  localHead : Nat
  poolResets : List Nat
deriving DecidableEq

/-- Applying one synced block (abstracted to its header number): write
it (advancing the local head) and reset the pool with its header. -/
def applyBlock (e : SyncEnv) (b : Nat) : SyncEnv :=
  { localHead := max e.localHead b, poolResets := e.poolResets ++ [b] }

/-- Modelled from the spec: the exit transition of Ibft.runSyncState
(consensus/ibft/ibft.go is not under src/; only its tests are).  Per
spec section 4.4.4, when no more progress is made (best peer's head not
newer than the local head) and sealing is enabled, the node unlocks,
sets the view to sequence = local head + 1, round 0, and moves to
AcceptState; otherwise it stays in SyncState. -/
def runSyncState (sealing : Bool) (s : SyncIbft) (e : SyncEnv)
    (blocks : List Nat) (bestPeerHead : Nat) : SyncIbft × SyncEnv :=
  let e2 := blocks.foldl applyBlock e
  if bestPeerHead ≤ e2.localHead ∧ sealing = true then
    ({ current := .acceptState, sequence := e2.localHead + 1, round := 0,
       locked := false }, e2)
  else (s, e2)

lemma skeletonDiffLoop_nonzero (d : Nat) (hd : d ≠ 0) :
    ∀ (rest : List Header) (prev : Header),
      skeletonDiffLoop d prev rest = (headerDiffsFrom prev rest).all (fun x => x == d) := by
  intro rest
  induction rest with
  | nil => intro prev; simp [skeletonDiffLoop, headerDiffsFrom]
  | cons h t ih =>
    intro prev
    simp only [skeletonDiffLoop, headerDiffsFrom, List.all_cons]
    rw [if_neg hd]
    by_cases he : u64Sub h.number prev.number = d
    · simp [he, ih h]
    · simp [he, Ne.symm he]

lemma skeletonDiffLoop_zero :
    ∀ (rest : List Header) (prev : Header),
      skeletonDiffLoop 0 prev rest = acceptedOf (headerDiffsFrom prev rest) := by
  intro rest
  induction rest with
  | nil => intro prev; simp [skeletonDiffLoop, headerDiffsFrom, acceptedOf]
  | cons h t ih =>
    intro prev
    simp only [skeletonDiffLoop, headerDiffsFrom, eq_self_iff_true, if_true]
    by_cases he : u64Sub h.number prev.number = 0
    · rw [he, ih h]
      simp [acceptedOf, List.dropWhile]
    · rw [skeletonDiffLoop_nonzero _ he t h]
      simp only [acceptedOf, List.dropWhile]
      have : (u64Sub h.number prev.number == 0) = false := by
        simpa using he
      simp [this]

lemma skeletonDiffOk_eq_acceptedStride (headers : List Header) :
    skeletonDiffOk headers = acceptedStride headers := by
  cases headers with
  | nil => simp [skeletonDiffOk, acceptedStride, headerDiffs, acceptedOf]
  | cons h rest =>
    simp only [skeletonDiffOk, acceptedStride, headerDiffs]
    exact skeletonDiffLoop_zero rest h

/-- C6 (amended): addSkeleton succeeds exactly when the consecutive
header-number differences (uint64 wrap-around), after ignoring zero
differences that occur before the first nonzero one, are all equal to
that first nonzero difference; on success it creates one slot per
header carrying that header's hash and number (and no blocks yet). -/
theorem addSkeleton_stride_characterization (headers : List Header) :
    addSkeleton headers =
      if acceptedStride headers then some (headers.map mkSlot) else none := by
  rw [addSkeleton, skeletonDiffOk_eq_acceptedStride]

/-- C6 counterexample: for header numbers 5, 5, 7 the consecutive
differences are 0 and 2, which are not all equal, yet addSkeleton
succeeds (the leading zero difference is ignored by the code). -/
theorem addSkeleton_nonuniform_accepted :
    specUniformStride [⟨5, 1, 0⟩, ⟨5, 2, 0⟩, ⟨7, 3, 0⟩] = false ∧
      (addSkeleton [⟨5, 1, 0⟩, ⟨5, 2, 0⟩, ⟨7, 3, 0⟩]).isSome = true := by
  constructor
  · decide
  · decide

lemma getLast?_eq_none_iff {α : Type} (l : List α) : l.getLast? = none ↔ l = [] := by
  cases l with
  | nil => simp
  | cons a as =>
    constructor
    · intro h
      rw [List.getLast?_eq_getLast _ (by simp)] at h
      cases h
    · intro h; cases h

/-- C10: lastHeader? is defined (returns the header of the last block of
the last slot) exactly when the skeleton has at least one slot and the
last slot has at least one block; the none branch (Go panic) is
unreachable exactly under that precondition. -/
theorem lastHeader_precondition (s : Skeleton) :
    ((lastHeader? s).isSome = true ↔
        ∃ slot, s.slots.getLast? = some slot ∧ slot.blocks ≠ []) ∧
      (s.slots.getLast? = none ↔ s.slots = []) ∧
      (∀ slot b, s.slots.getLast? = some slot → slot.blocks.getLast? = some b →
        lastHeader? s = some b.header) := by
  refine ⟨?_, getLast?_eq_none_iff s.slots, ?_⟩
  · cases hs : s.slots.getLast? with
    | none => simp [lastHeader?, hs]
    | some slot =>
      cases hb : slot.blocks.getLast? with
      | none =>
        have hbe : slot.blocks = [] := (getLast?_eq_none_iff slot.blocks).1 hb
        simp [lastHeader?, hs, hb, hbe]
      | some b =>
        have hbne : slot.blocks ≠ [] := by
          intro he
          rw [he] at hb
          cases hb
        simp [lastHeader?, hs, hb, hbne]
  · intro slot b hs hb
    simp [lastHeader?, hs, hb]

/-- Witness for C10 at a concrete one-slot, one-block skeleton. -/
theorem lastHeader_precondition_witness :
    lastHeader? ⟨[⟨1, 1, [⟨⟨1, 1, 0⟩, []⟩]⟩]⟩ = some ⟨1, 1, 0⟩ :=
  (lastHeader_precondition ⟨[⟨1, 1, [⟨⟨1, 1, 0⟩, []⟩]⟩]⟩).2.2 ⟨1, 1, [⟨⟨1, 1, 0⟩, []⟩]⟩
    ⟨⟨1, 1, 0⟩, []⟩ (by decide) (by decide)

/-- C9: shouldWriteTransactions returns true iff at least one registered
mechanism's ShouldWriteTransactions returns true at that height; in
particular it returns false when every mechanism returns false. -/
theorem shouldWriteTransactions_any (mechanisms : List (Nat → Bool)) (height : Nat) :
    (shouldWriteTransactions mechanisms height = true ↔
        ∃ m ∈ mechanisms, m height = true) ∧
      (shouldWriteTransactions mechanisms height = false ↔
        ∀ m ∈ mechanisms, m height = false) := by
  constructor
  · simp [shouldWriteTransactions, List.any_eq_true]
  · constructor
    · intro h m hm
      by_contra hne
      have : m height = true := by
        cases hmh : m height with
        | true => rfl
        | false => exact absurd hmh hne
      have : shouldWriteTransactions mechanisms height = true := by
        simp only [shouldWriteTransactions, List.any_eq_true]
        exact ⟨m, hm, this⟩
      rw [h] at this
      cases this
    · intro h
      cases hs : shouldWriteTransactions mechanisms height with
      | false => rfl
      | true =>
        exfalso
        simp only [shouldWriteTransactions, List.any_eq_true] at hs
        obtain ⟨m, hm, hmt⟩ := hs
        rw [h m hm] at hmt
        cases hmt

/-- C7 counterexample: a response whose second object is nil but whose
first payload fails to decode is rejected with the decode error, not
with ErrNilHeaderResponse, although the response does contain a nil
entry. -/
theorem getHeaders_nil_after_bad_decode :
    (List.any [some (some 0), none] nilObj = true) ∧
      getHeaders decEx [some (some 0), none] = .error .decodeError ∧
      getHeaders decEx [some (some 0), none] ≠ .error .nilHeaderResponse := by
  refine ⟨by decide, rfl, ?_⟩
  intro h
  have : getHeaders decEx [some (some 0), none] = .error .decodeError := rfl
  rw [this] at h
  exact absurd (Except.error.inj h) (by decide)

/-- C7 (amended): (a) any nil object or nil payload in a response makes
getHeaders return an error and no headers; (b) the error is
ErrNilHeaderResponse whenever every object before the first nil entry is
non-nil and decodes; (c) if no entry is nil and every payload decodes,
getHeaders returns exactly one header per response object, in order. -/
theorem getHeaders_characterization (dec : Nat → Option Header) (objs : List HeaderObj) :
    (objs.any nilObj = true → ∃ e, getHeaders dec objs = .error e) ∧
      (∀ front o rest, objs = front ++ o :: rest → nilObj o = true →
        (∀ x ∈ front, ∃ v h, x = some (some v) ∧ dec v = some h) →
        getHeaders dec objs = .error .nilHeaderResponse) ∧
      ((∀ x ∈ objs, ∃ v h, x = some (some v) ∧ dec v = some h) →
        getHeaders dec objs = .ok (objs.filterMap (decObj dec)) ∧
          (objs.filterMap (decObj dec)).length = objs.length) := by
  refine ⟨?_, ?_, ?_⟩
  · induction objs with
    | nil => intro h; cases h
    | cons o rest ih =>
      intro h
      match o with
      | none => exact ⟨.nilHeaderResponse, rfl⟩
      | some none => exact ⟨.nilHeaderResponse, rfl⟩
      | some (some v) =>
        have hrest : rest.any nilObj = true := by
          simpa [nilObj] using h
        obtain ⟨e, he⟩ := ih hrest
        cases hd : dec v with
        | none => exact ⟨.decodeError, by simp [getHeaders, hd]⟩
        | some hh => exact ⟨e, by simp [getHeaders, hd, he]⟩
  · intro front
    induction front generalizing objs with
    | nil =>
      intro o rest hobjs hnil _
      subst hobjs
      match o, hnil with
      | none, _ => rfl
      | some none, _ => rfl
    | cons x front' ih =>
      intro o rest hobjs hnil hfront
      subst hobjs
      obtain ⟨v, hh, hx, hd⟩ := hfront x (by simp)
      subst hx
      have htail :=
        ih (front' ++ o :: rest) o rest rfl hnil
          (fun y hy => hfront y (by simp [hy]))
      simp [getHeaders, hd, htail]
  · induction objs with
    | nil => intro _; exact ⟨rfl, rfl⟩
    | cons o rest ih =>
      intro h
      obtain ⟨v, hh, ho, hd⟩ := h o (by simp)
      subst ho
      obtain ⟨hok, hlen⟩ := ih (fun y hy => h y (by simp [hy]))
      constructor
      · simp [getHeaders, hd, hok, List.filterMap_cons, decObj]
      · simp [List.filterMap_cons, decObj, hd, hlen]

/-- Witness for C7 at concrete inputs: a nil-second-entry response (for
parts a and b) and a fully-decodable response (for part c). -/
theorem getHeaders_characterization_witness :
    (∃ e, getHeaders decEx [some (some 3), none] = .error e) ∧
      getHeaders decEx [some (some 3), none] = .error .nilHeaderResponse ∧
      getHeaders decEx [some (some 1), some (some 2)] =
        .ok ([some (some 1), some (some 2)].filterMap (decObj decEx)) := by
  refine ⟨?_, ?_, ?_⟩
  · exact (getHeaders_characterization decEx [some (some 3), none]).1 (by decide)
  · exact (getHeaders_characterization decEx [some (some 3), none]).2.1
      [some (some 3)] none [] rfl (by decide)
      (by intro x hx; simp at hx; subst hx; exact ⟨3, ⟨3, 3, 0⟩, rfl, by decide⟩)
  · exact ((getHeaders_characterization decEx [some (some 1), some (some 2)]).2.2
      (by
        intro x hx
        simp at hx
        cases hx with
        | inl h => subst h; exact ⟨1, ⟨1, 1, 0⟩, rfl, by decide⟩
        | inr h => subst h; exact ⟨2, ⟨2, 2, 0⟩, rfl, by decide⟩)).1

lemma enumFrom_filter_map_snd {α : Type} (g : Header → α) :
    ∀ (l : List Header) (n : Nat),
      ((List.enumFrom n l).filter (fun p => nonEmptyRoot p.2)).map (fun p => g p.2) =
        (l.filter nonEmptyRoot).map g := by
  intro l
  induction l with
  | nil => intro n; rfl
  | cons h t ih =>
    intro n
    simp only [List.enumFrom_cons, List.filter_cons]
    cases hr : nonEmptyRoot h with
    | true => simp [hr, ih (n + 1)]
    | false => simp [hr, ih (n + 1)]

lemma mem_enumFrom_get? :
    ∀ (l : List Header) (n : Nat) (p : Nat × Header), p ∈ List.enumFrom n l →
      n ≤ p.1 ∧ l.get? (p.1 - n) = some p.2 := by
  intro l
  induction l with
  | nil => intro n p hp; cases hp
  | cons h t ih =>
    intro n p hp
    rw [List.enumFrom_cons] at hp
    cases hp with
    | head => simp
    | tail _ hp' =>
      obtain ⟨hle, hget⟩ := ih (n + 1) p hp'
      refine ⟨Nat.le_of_succ_le hle, ?_⟩
      have hsub : p.1 - n = (p.1 - (n + 1)) + 1 := by omega
      rw [hsub]
      simpa using hget

lemma bodyIndexOf_nodup (resp : List Header) : (bodyIndexOf resp).Nodup := by
  have hsub : ((resp.enum.filter (fun p => nonEmptyRoot p.2)).map Prod.fst).Sublist
      (resp.enum.map Prod.fst) :=
    (List.filter_sublist _).map Prod.fst
  have : (resp.enum.map Prod.fst).Nodup := by
    rw [List.enum_map_fst]
    exact List.nodup_range _
  exact (this.sublist hsub)

lemma map_fst_zip_sublist {α β : Type} :
    ∀ (l1 : List α) (l2 : List β), ((l1.zip l2).map Prod.fst).Sublist l1 := by
  intro l1
  induction l1 with
  | nil => intro l2; simp
  | cons a t ih =>
    intro l2
    cases l2 with
    | nil => simp
    | cons b t2 =>
      simpa using (ih t2).cons₂ a

lemma get?_zip_eq {α β : Type} :
    ∀ (l1 : List α) (l2 : List β) (i : Nat) (a : α) (b : β),
      l1.get? i = some a → l2.get? i = some b → (l1.zip l2).get? i = some (a, b) := by
  intro l1
  induction l1 with
  | nil => intro l2 i a b h; cases h
  | cons x t ih =>
    intro l2 i a b h1 h2
    cases l2 with
    | nil => cases h2
    | cons y t2 =>
      cases i with
      | zero =>
        cases h1
        cases h2
        rfl
      | succ i' =>
        simpa using ih t2 i' a b (by simpa using h1) (by simpa using h2)

lemma setBlockTxs_get?_eq :
    ∀ (blocks : List Block) (idx : Nat) (txs : List Nat),
      (setBlockTxs blocks idx txs).get? idx =
        (blocks.get? idx).map (fun b => { b with transactions := txs }) := by
  intro blocks
  induction blocks with
  | nil => intro idx txs; cases idx <;> rfl
  | cons b bs ih =>
    intro idx txs
    cases idx with
    | zero => rfl
    | succ n => simpa [setBlockTxs] using ih n txs

lemma setBlockTxs_get?_ne :
    ∀ (blocks : List Block) (idx : Nat) (txs : List Nat) (j : Nat), j ≠ idx →
      (setBlockTxs blocks idx txs).get? j = blocks.get? j := by
  intro blocks
  induction blocks with
  | nil => intro idx txs j _; cases idx <;> rfl
  | cons b bs ih =>
    intro idx txs j hne
    cases idx with
    | zero =>
      cases j with
      | zero => exact absurd rfl hne
      | succ j' => rfl
    | succ n =>
      cases j with
      | zero => rfl
      | succ j' => simpa [setBlockTxs] using ih n txs j' (fun h => hne (by rw [h]))

lemma assignBodies_get?_not_mem :
    ∀ (pairs : List (Nat × List Nat)) (blocks : List Block) (j : Nat),
      j ∉ pairs.map Prod.fst →
      (assignBodies blocks pairs).get? j = blocks.get? j := by
  intro pairs
  induction pairs with
  | nil => intro blocks j _; rfl
  | cons p rest ih =>
    intro blocks j hj
    obtain ⟨idx, body⟩ := p
    simp only [List.map_cons, List.mem_cons] at hj
    push_neg at hj
    rw [assignBodies, ih _ j hj.2, setBlockTxs_get?_ne _ _ _ j hj.1]

lemma assignBodies_get?_mem :
    ∀ (pairs : List (Nat × List Nat)) (blocks : List Block) (j : Nat) (body : List Nat),
      (pairs.map Prod.fst).Nodup → (j, body) ∈ pairs →
      (assignBodies blocks pairs).get? j =
        (blocks.get? j).map (fun b => { b with transactions := body }) := by
  intro pairs
  induction pairs with
  | nil => intro blocks j body _ hmem; cases hmem
  | cons p rest ih =>
    intro blocks j body hnd hmem
    obtain ⟨idx, body0⟩ := p
    rw [List.map_cons, List.nodup_cons] at hnd
    cases hmem with
    | head =>
      rw [assignBodies, assignBodies_get?_not_mem rest _ j hnd.1,
        setBlockTxs_get?_eq]
    | tail _ hmem' =>
      have hj : j ≠ idx := by
        intro he
        exact hnd.1 (he ▸ (List.mem_map.2 ⟨(j, body), hmem', rfl⟩))
      rw [assignBodies, ih _ j body hnd.2 hmem', setBlockTxs_get?_ne _ _ _ j hj]

lemma bodyHashesOf_eq (resp : List Header) :
    bodyHashesOf resp = (resp.filter nonEmptyRoot).map Header.hash := by
  rw [bodyHashesOf, List.enum]
  exact enumFrom_filter_map_snd Header.hash resp 0

lemma bodyIndexOf_get?_spec (resp : List Header) (i j : Nat)
    (hij : (bodyIndexOf resp).get? i = some j) :
    ∃ h, resp.get? j = some h ∧ nonEmptyRoot h = true ∧
      (resp.filter nonEmptyRoot).get? i = some h := by
  rw [bodyIndexOf, List.get?_map] at hij
  cases hp : (resp.enum.filter (fun p => nonEmptyRoot p.2)).get? i with
  | none => rw [hp] at hij; cases hij
  | some p =>
    rw [hp] at hij
    have hj : p.1 = j := by
      simpa using hij
    have hpmem : p ∈ resp.enum.filter (fun p => nonEmptyRoot p.2) := List.get?_mem hp
    have hpe : p ∈ resp.enum := (List.mem_filter.1 hpmem).1
    have hproot : nonEmptyRoot p.2 = true := (List.mem_filter.1 hpmem).2
    have hget := (mem_enumFrom_get? resp 0 p (by rwa [List.enum] at hpe)).2
    refine ⟨p.2, ?_, hproot, ?_⟩
    · rw [← hj]
      simpa using hget
    · have : (resp.filter nonEmptyRoot) =
          (resp.enum.filter (fun p => nonEmptyRoot p.2)).map (fun p => p.2) := by
        have := enumFrom_filter_map_snd (fun h => h) resp 0
        rw [List.enum, this, List.map_id']
      rw [this, List.get?_map, hp]
      rfl

lemma notMem_bodyIndexOf (resp : List Header) (j : Nat) (h : Header)
    (hj : resp.get? j = some h) (hroot : h.txRoot = emptyRootHash) :
    j ∉ bodyIndexOf resp := by
  intro hmem
  rw [bodyIndexOf] at hmem
  obtain ⟨p, hpmem, hpj⟩ := List.mem_map.1 hmem
  have hpe : p ∈ resp.enum := (List.mem_filter.1 hpmem).1
  have hproot : nonEmptyRoot p.2 = true := (List.mem_filter.1 hpmem).2
  have hget := (mem_enumFrom_get? resp 0 p (by rwa [List.enum] at hpe)).2
  rw [hpj] at hget
  simp only [Nat.sub_zero] at hget
  rw [hj] at hget
  have hph : p.2 = h := by
    cases hget
    rfl
  rw [hph, nonEmptyRoot, hroot] at hproot
  simp at hproot

/-- C8: fillSlot requests bodies exactly for the fetched headers whose
transaction root differs from the empty root (no request at all when
there is none); the i-th returned body's transactions go to the block at
the position of the i-th such header; and a block whose header has an
empty transaction root keeps no transactions. -/
theorem fillSlot_characterization (getBodies : List Nat → List (List Nat))
    (resp : List Header) :
    ((fillSlot getBodies resp).bodyRequests =
        if resp.filter nonEmptyRoot = [] then []
        else [(resp.filter nonEmptyRoot).map Header.hash]) ∧
      (∀ j h, resp.get? j = some h → h.txRoot = emptyRootHash →
        (fillSlot getBodies resp).blocks.get? j = some ⟨h, []⟩) ∧
      (∀ i j, (bodyIndexOf resp).get? i = some j →
        ∃ h, resp.get? j = some h ∧ nonEmptyRoot h = true ∧
          (resp.filter nonEmptyRoot).get? i = some h) ∧
      (∀ i j body h, (bodyIndexOf resp).get? i = some j →
        (getBodies (bodyHashesOf resp)).get? i = some body →
        resp.get? j = some h →
        (fillSlot getBodies resp).blocks.get? j = some ⟨h, body⟩) := by
  have hlen : (bodyHashesOf resp).length = (resp.filter nonEmptyRoot).length := by
    rw [bodyHashesOf_eq, List.length_map]
  refine ⟨?_, ?_, fun i j hij => bodyIndexOf_get?_spec resp i j hij, ?_⟩
  · by_cases hz : (bodyHashesOf resp).length = 0
    · have : resp.filter nonEmptyRoot = [] := by
        rw [hlen] at hz
        exact List.length_eq_zero.1 hz
      simp [fillSlot, hz, this]
    · have : resp.filter nonEmptyRoot ≠ [] := by
        intro he
        rw [hlen, he] at hz
        exact hz rfl
      simp [fillSlot, hz, this, bodyHashesOf_eq]
  · intro j h hj hroot
    have hnm : j ∉ bodyIndexOf resp := notMem_bodyIndexOf resp j h hj hroot
    by_cases hz : (bodyHashesOf resp).length = 0
    · simp only [fillSlot, if_pos hz]
      show (resp.map (fun h => ({ header := h, transactions := [] } : Block))).get? j =
        some ⟨h, []⟩
      rw [List.get?_map, hj]
      rfl
    · have hnm2 : j ∉ ((bodyIndexOf resp).zip (getBodies (bodyHashesOf resp))).map
          Prod.fst := by
        intro hmem
        exact hnm (List.Sublist.mem hmem (map_fst_zip_sublist _ _))
      simp only [fillSlot, if_neg hz]
      rw [assignBodies_get?_not_mem _ _ j hnm2, List.get?_map, hj]
      rfl
  · intro i j body h hij hbody hj
    have hzip : (((bodyIndexOf resp).zip (getBodies (bodyHashesOf resp)))).get? i =
        some (j, body) := get?_zip_eq _ _ i j body hij hbody
    have hmem : (j, body) ∈ (bodyIndexOf resp).zip (getBodies (bodyHashesOf resp)) :=
      List.get?_mem hzip
    have hnd : (((bodyIndexOf resp).zip (getBodies (bodyHashesOf resp))).map
        Prod.fst).Nodup :=
      (bodyIndexOf_nodup resp).sublist (map_fst_zip_sublist _ _)
    have hz : ¬(bodyHashesOf resp).length = 0 := by
      intro hz
      have : bodyIndexOf resp = [] := by
        have : (bodyIndexOf resp).length = 0 := by
          rw [bodyIndexOf, List.length_map]
          rw [bodyHashesOf, List.length_map] at hz
          exact hz
        exact List.length_eq_zero.1 this
      rw [this] at hij
      cases hij
    simp only [fillSlot, if_neg hz]
    rw [assignBodies_get?_mem _ _ j body hnd hmem, List.get?_map, hj]
    rfl

/-- Witness for C8 at a concrete response: headers at positions 0 and 2
carry transactions (roots 5 and 7), position 1 has the empty root; the
two returned bodies land on blocks 0 and 2 and block 1 stays empty. -/
theorem fillSlot_characterization_witness :
    (fillSlot (fun _ => [[10], [20]]) [⟨1, 11, 5⟩, ⟨2, 12, 0⟩, ⟨3, 13, 7⟩]).bodyRequests =
        (if ([⟨1, 11, 5⟩, ⟨2, 12, 0⟩, ⟨3, 13, 7⟩] : List Header).filter nonEmptyRoot = []
          then [] else [(([⟨1, 11, 5⟩, ⟨2, 12, 0⟩, ⟨3, 13, 7⟩] : List Header).filter
            nonEmptyRoot).map Header.hash]) ∧
      (fillSlot (fun _ => [[10], [20]]) [⟨1, 11, 5⟩, ⟨2, 12, 0⟩, ⟨3, 13, 7⟩]).blocks.get? 1 =
        some ⟨⟨2, 12, 0⟩, []⟩ ∧
      (fillSlot (fun _ => [[10], [20]]) [⟨1, 11, 5⟩, ⟨2, 12, 0⟩, ⟨3, 13, 7⟩]).blocks.get? 2 =
        some ⟨⟨3, 13, 7⟩, [20]⟩ := by
  refine ⟨(fillSlot_characterization (fun _ => [[10], [20]])
      [⟨1, 11, 5⟩, ⟨2, 12, 0⟩, ⟨3, 13, 7⟩]).1, ?_, ?_⟩
  · exact (fillSlot_characterization (fun _ => [[10], [20]])
      [⟨1, 11, 5⟩, ⟨2, 12, 0⟩, ⟨3, 13, 7⟩]).2.1 1 ⟨2, 12, 0⟩ (by decide) (by decide)
  · exact (fillSlot_characterization (fun _ => [[10], [20]])
      [⟨1, 11, 5⟩, ⟨2, 12, 0⟩, ⟨3, 13, 7⟩]).2.2.2 1 2 [20] ⟨3, 13, 7⟩ (by decide)
      (by decide) (by decide)

lemma pickBest_none_iff : ∀ qs : List (List Tx), pickBest qs = none ↔ qs = [] := by
  intro qs
  cases qs with
  | nil => simp [pickBest]
  | cons q rest =>
    simp only [pickBest]
    cases h : pickBest rest with
    | none => simp
    | some p =>
      obtain ⟨best, others⟩ := p
      by_cases hk : keyLe (headKey best) (headKey q)
      · simp [hk]
      · simp [hk]

lemma pickBest_perm : ∀ (qs : List (List Tx)) (q : List Tx) (others : List (List Tx)),
    pickBest qs = some (q, others) → (q :: others).Perm qs := by
  intro qs
  induction qs with
  | nil => intro q others h; cases h
  | cons x rest ih =>
    intro q others h
    simp only [pickBest] at h
    revert h
    cases hr : pickBest rest with
    | none =>
      intro h
      simp only [Option.some.injEq, Prod.mk.injEq] at h
      obtain ⟨h1, h2⟩ := h
      have hrest : rest = [] := (pickBest_none_iff rest).1 hr
      rw [← h1, ← h2, hrest]
    | some p =>
      obtain ⟨best, others'⟩ := p
      intro h
      simp only at h
      have hperm : (best :: others').Perm rest := ih best others' hr
      by_cases hk : keyLe (headKey best) (headKey x) = true
      · rw [if_pos hk] at h
        simp only [Option.some.injEq, Prod.mk.injEq] at h
        obtain ⟨h1, h2⟩ := h
        rw [← h1, ← h2]
        exact List.Perm.cons x hperm
      · rw [if_neg hk] at h
        simp only [Option.some.injEq, Prod.mk.injEq] at h
        obtain ⟨h1, h2⟩ := h
        rw [← h1, ← h2]
        exact (List.Perm.swap x best others').trans (List.Perm.cons x hperm)

lemma packMeasure_perm {l l' : List (List Tx)} (h : l.Perm l') :
    packMeasure l = packMeasure l' := by
  unfold packMeasure
  rw [(h.map List.length).sum_eq, h.length_eq]

lemma packMeasure_cons (q : List Tx) (qs : List (List Tx)) :
    packMeasure (q :: qs) = q.length + 1 + packMeasure qs := by
  simp only [packMeasure, List.map_cons, List.sum_cons, List.length_cons]
  omega

lemma packMeasure_append_singleton (qs : List (List Tx)) (r : List Tx) :
    packMeasure (qs ++ [r]) = packMeasure qs + r.length + 1 := by
  simp only [packMeasure, List.map_append, List.sum_append, List.length_append,
    List.map_cons, List.sum_cons, List.map_nil, List.sum_nil, List.length_cons,
    List.length_nil]
  omega

lemma notMem_append_singleton {α : Type} {x y : α} {l : List α}
    (h1 : x ∉ l) (h2 : y ≠ x) : x ∉ l ++ [y] := by
  intro hm
  rcases List.mem_append.1 hm with hm | hm
  · exact h1 hm
  · exact h2 (List.mem_singleton.1 hm).symm

lemma blocked_head (tx t' h0 : Tx) (rest : List Tx)
    (hnd : (h0 :: rest).Nodup) (hb : OccursBlocked tx t' (h0 :: rest)) :
    h0 ≠ t' ∧ (h0 = tx ∨ OccursBlocked tx t' rest) := by
  obtain ⟨a, b, c, heq⟩ := hb
  rw [List.nodup_cons] at hnd
  cases a with
  | nil =>
    simp only [List.nil_append] at heq
    injection heq with he1 he2
    refine ⟨?_, Or.inl he1⟩
    intro he
    apply hnd.1
    rw [he2, ← he]
    exact List.mem_append_right _ (List.mem_cons_self _ _)
  | cons x a' =>
    simp only [List.cons_append] at heq
    injection heq with he1 he2
    refine ⟨?_, Or.inr ⟨a', b, c, he2⟩⟩
    intro he
    apply hnd.1
    rw [he2, ← he]
    simp

lemma writeTxLoop_gasLimitReached_excluded (write : Tx → ExecResult) (gasLimit : Nat)
    (tx : Tx) (hw : write tx = .gasLimitReached) (hg : tx.gas ≤ gasLimit) :
    ∀ (fuel : Nat) (queues : List (List Tx)) (acc : PackResult),
      tx ∉ acc.included → tx ∉ acc.shouldDrop → tx ∉ acc.shouldDemote →
      tx ∉ acc.failedReceipts →
      tx ∉ (writeTxLoop write gasLimit fuel queues acc).included ∧
        tx ∉ (writeTxLoop write gasLimit fuel queues acc).shouldDrop ∧
        tx ∉ (writeTxLoop write gasLimit fuel queues acc).shouldDemote ∧
        tx ∉ (writeTxLoop write gasLimit fuel queues acc).failedReceipts := by
  intro fuel
  induction fuel with
  | zero =>
    intro queues acc h1 h2 h3 h4
    exact ⟨h1, h2, h3, h4⟩
  | succ n ih =>
    intro queues acc h1 h2 h3 h4
    cases hpb : pickBest queues with
    | none =>
      simp only [writeTxLoop, hpb]
      exact ⟨h1, h2, h3, h4⟩
    | some p =>
      obtain ⟨q, others⟩ := p
      cases q with
      | nil =>
        simp only [writeTxLoop, hpb]
        exact ih others acc h1 h2 h3 h4
      | cons t0 rst =>
        by_cases hgas : gasLimit < t0.gas
        · have ht0 : t0 ≠ tx := by
            intro he
            rw [he] at hgas
            omega
          simp only [writeTxLoop, hpb, if_pos hgas]
          exact ih others _ h1 (notMem_append_singleton h2 ht0) h3
            (notMem_append_singleton h4 ht0)
        · cases hwt : write t0 with
          | success =>
            have ht0 : t0 ≠ tx := by
              intro he
              rw [he, hw] at hwt
              cases hwt
            simp only [writeTxLoop, hpb, if_neg hgas, hwt]
            exact ih (others ++ [rst]) _ (notMem_append_singleton h1 ht0) h2 h3 h4
          | failedWithReceipt =>
            have ht0 : t0 ≠ tx := by
              intro he
              rw [he, hw] at hwt
              cases hwt
            simp only [writeTxLoop, hpb, if_neg hgas, hwt]
            exact ih (others ++ [rst]) _ (notMem_append_singleton h1 ht0) h2 h3 h4
          | gasLimitReached =>
            simp only [writeTxLoop, hpb, if_neg hgas, hwt]
            exact ih others acc h1 h2 h3 h4
          | notExecutable =>
            have ht0 : t0 ≠ tx := by
              intro he
              rw [he, hw] at hwt
              cases hwt
            simp only [writeTxLoop, hpb, if_neg hgas, hwt]
            exact ih others _ h1 (notMem_append_singleton h2 ht0) h3 h4
          | recoverable =>
            have ht0 : t0 ≠ tx := by
              intro he
              rw [he, hw] at hwt
              cases hwt
            simp only [writeTxLoop, hpb, if_neg hgas, hwt]
            exact ih others _ h1 h2 (notMem_append_singleton h3 ht0) h4

/-- C1: when the executor reports gas-limit-reached for a transaction it
is asked to apply (a transaction within the overall block gas limit, so
the intrinsic pre-check does not fire), writeTransactions skips it for
the current block but does not remove it from the pool: it appears
neither in the included list nor in the drop or demote lists, and no
failed receipt is written for it. -/
theorem writeTransactions_gasLimitReached_retained (write : Tx → ExecResult)
    (gasLimit : Nat) (queues : List (List Tx)) (tx : Tx)
    (hw : write tx = .gasLimitReached) (hg : tx.gas ≤ gasLimit) :
    tx ∉ (writeTransactions write gasLimit queues).included ∧
      tx ∉ (writeTransactions write gasLimit queues).shouldDrop ∧
      tx ∉ (writeTransactions write gasLimit queues).shouldDemote ∧
      tx ∉ (writeTransactions write gasLimit queues).failedReceipts :=
  writeTxLoop_gasLimitReached_excluded write gasLimit tx hw hg (packMeasure queues)
    queues ⟨[], [], [], []⟩ (List.not_mem_nil tx) (List.not_mem_nil tx)
    (List.not_mem_nil tx) (List.not_mem_nil tx)

/-- Witness for C1 at a one-sender pool where the executor reports
gas-limit-reached for the only transaction. -/
theorem writeTransactions_gasLimitReached_retained_witness :
    (⟨1, 1, 1, 5⟩ : Tx) ∉
        (writeTransactions (fun _ => .gasLimitReached) 10 [[⟨1, 1, 1, 5⟩]]).included ∧
      (⟨1, 1, 1, 5⟩ : Tx) ∉
        (writeTransactions (fun _ => .gasLimitReached) 10 [[⟨1, 1, 1, 5⟩]]).shouldDrop ∧
      (⟨1, 1, 1, 5⟩ : Tx) ∉
        (writeTransactions (fun _ => .gasLimitReached) 10 [[⟨1, 1, 1, 5⟩]]).shouldDemote ∧
      (⟨1, 1, 1, 5⟩ : Tx) ∉
        (writeTransactions (fun _ => .gasLimitReached) 10 [[⟨1, 1, 1, 5⟩]]).failedReceipts :=
  writeTransactions_gasLimitReached_retained (fun _ => .gasLimitReached) 10
    [[⟨1, 1, 1, 5⟩]] ⟨1, 1, 1, 5⟩ rfl (by decide)

lemma writeTxLoop_shouldDrop_failed (write : Tx → ExecResult) (gasLimit : Nat) :
    ∀ (fuel : Nat) (queues : List (List Tx)) (acc : PackResult),
      (∀ u ∈ acc.shouldDrop, gasLimit < u.gas ∨ write u = .notExecutable) →
      ∀ u ∈ (writeTxLoop write gasLimit fuel queues acc).shouldDrop,
        gasLimit < u.gas ∨ write u = .notExecutable := by
  intro fuel
  induction fuel with
  | zero => intro queues acc hinv; exact hinv
  | succ n ih =>
    intro queues acc hinv
    cases hpb : pickBest queues with
    | none =>
      simp only [writeTxLoop, hpb]
      exact hinv
    | some p =>
      obtain ⟨q, others⟩ := p
      cases q with
      | nil =>
        simp only [writeTxLoop, hpb]
        exact ih others acc hinv
      | cons t0 rst =>
        by_cases hgas : gasLimit < t0.gas
        · simp only [writeTxLoop, hpb, if_pos hgas]
          refine ih others _ ?_
          intro u hu
          rcases List.mem_append.1 hu with hu | hu
          · exact hinv u hu
          · rw [List.mem_singleton.1 hu]
            exact Or.inl hgas
        · cases hwt : write t0 with
          | success =>
            simp only [writeTxLoop, hpb, if_neg hgas, hwt]
            exact ih (others ++ [rst]) _ hinv
          | failedWithReceipt =>
            simp only [writeTxLoop, hpb, if_neg hgas, hwt]
            exact ih (others ++ [rst]) _ hinv
          | gasLimitReached =>
            simp only [writeTxLoop, hpb, if_neg hgas, hwt]
            exact ih others acc hinv
          | notExecutable =>
            simp only [writeTxLoop, hpb, if_neg hgas, hwt]
            refine ih others _ ?_
            intro u hu
            rcases List.mem_append.1 hu with hu | hu
            · exact hinv u hu
            · rw [List.mem_singleton.1 hu]
              exact Or.inr hwt
          | recoverable =>
            simp only [writeTxLoop, hpb, if_neg hgas, hwt]
            exact ih others _ hinv

lemma writeTxLoop_blocked_excluded (write : Tx → ExecResult) (gasLimit : Nat)
    (tx t' : Tx) (hw : write tx = .notExecutable) :
    ∀ (fuel : Nat) (queues : List (List Tx)) (acc : PackResult),
      (∀ q ∈ queues, q.Nodup) →
      (∀ q ∈ queues, t' ∈ q → OccursBlocked tx t' q) →
      t' ∉ acc.included → t' ∉ acc.shouldDrop → t' ∉ acc.shouldDemote →
      t' ∉ acc.failedReceipts →
      t' ∉ (writeTxLoop write gasLimit fuel queues acc).included ∧
        t' ∉ (writeTxLoop write gasLimit fuel queues acc).shouldDrop ∧
        t' ∉ (writeTxLoop write gasLimit fuel queues acc).shouldDemote ∧
        t' ∉ (writeTxLoop write gasLimit fuel queues acc).failedReceipts := by
  intro fuel
  induction fuel with
  | zero =>
    intro queues acc _ _ h1 h2 h3 h4
    exact ⟨h1, h2, h3, h4⟩
  | succ n ih =>
    intro queues acc hnd hbl h1 h2 h3 h4
    cases hpb : pickBest queues with
    | none =>
      simp only [writeTxLoop, hpb]
      exact ⟨h1, h2, h3, h4⟩
    | some p =>
      obtain ⟨q, others⟩ := p
      have hmemq : q ∈ queues := (pickBest_perm queues q others hpb).subset
        (List.mem_cons_self q others)
      have hothers : ∀ q' ∈ others, q' ∈ queues := by
        intro q' hq'
        exact (pickBest_perm queues q others hpb).subset (List.mem_cons_of_mem q hq')
      have hndo : ∀ q' ∈ others, q'.Nodup := fun q' hq' => hnd q' (hothers q' hq')
      have hblo : ∀ q' ∈ others, t' ∈ q' → OccursBlocked tx t' q' :=
        fun q' hq' ht => hbl q' (hothers q' hq') ht
      cases q with
      | nil =>
        simp only [writeTxLoop, hpb]
        exact ih others acc hndo hblo h1 h2 h3 h4
      | cons t0 rst =>
        have hne : t0 ≠ t' := by
          by_cases htq : t' ∈ t0 :: rst
          · exact (blocked_head tx t' t0 rst (hnd _ hmemq) (hbl _ hmemq htq)).1
          · intro he
            exact htq (he ▸ List.mem_cons_self t0 rst)
        by_cases hgas : gasLimit < t0.gas
        · simp only [writeTxLoop, hpb, if_pos hgas]
          exact ih others _ hndo hblo h1 (notMem_append_singleton h2 hne) h3
            (notMem_append_singleton h4 hne)
        · cases hwt : write t0 with
          | success =>
            simp only [writeTxLoop, hpb, if_neg hgas, hwt]
            have ht0tx : t0 ≠ tx := by
              intro he
              rw [he, hw] at hwt
              cases hwt
            refine ih (others ++ [rst]) _ ?_ ?_ (notMem_append_singleton h1 hne) h2 h3 h4
            · intro q' hq'
              rcases List.mem_append.1 hq' with hq' | hq'
              · exact hndo q' hq'
              · rw [List.mem_singleton.1 hq']
                exact ((hnd _ hmemq).of_cons)
            · intro q' hq' ht
              rcases List.mem_append.1 hq' with hq' | hq'
              · exact hblo q' hq' ht
              · rw [List.mem_singleton.1 hq'] at ht ⊢
                have htq : t' ∈ t0 :: rst := List.mem_cons_of_mem t0 ht
                rcases (blocked_head tx t' t0 rst (hnd _ hmemq) (hbl _ hmemq htq)).2 with
                  he | hocc
                · exact absurd he ht0tx
                · exact hocc
          | failedWithReceipt =>
            simp only [writeTxLoop, hpb, if_neg hgas, hwt]
            have ht0tx : t0 ≠ tx := by
              intro he
              rw [he, hw] at hwt
              cases hwt
            refine ih (others ++ [rst]) _ ?_ ?_ (notMem_append_singleton h1 hne) h2 h3 h4
            · intro q' hq'
              rcases List.mem_append.1 hq' with hq' | hq'
              · exact hndo q' hq'
              · rw [List.mem_singleton.1 hq']
                exact ((hnd _ hmemq).of_cons)
            · intro q' hq' ht
              rcases List.mem_append.1 hq' with hq' | hq'
              · exact hblo q' hq' ht
              · rw [List.mem_singleton.1 hq'] at ht ⊢
                have htq : t' ∈ t0 :: rst := List.mem_cons_of_mem t0 ht
                rcases (blocked_head tx t' t0 rst (hnd _ hmemq) (hbl _ hmemq htq)).2 with
                  he | hocc
                · exact absurd he ht0tx
                · exact hocc
          | gasLimitReached =>
            simp only [writeTxLoop, hpb, if_neg hgas, hwt]
            exact ih others acc hndo hblo h1 h2 h3 h4
          | notExecutable =>
            simp only [writeTxLoop, hpb, if_neg hgas, hwt]
            exact ih others _ hndo hblo h1 (notMem_append_singleton h2 hne) h3 h4
          | recoverable =>
            simp only [writeTxLoop, hpb, if_neg hgas, hwt]
            exact ih others _ hndo hblo h1 h2 (notMem_append_singleton h3 hne) h4

lemma writeTxLoop_reaches (write : Tx → ExecResult) (gasLimit : Nat) (t : Tx) :
    ∀ (fuel : Nat) (queues : List (List Tx)) (acc : PackResult),
      packMeasure queues ≤ fuel →
      ((∃ q, q ∈ queues ∧ ∃ pre post, q = pre ++ t :: post ∧
          ∀ u ∈ pre ++ [t], u.gas ≤ gasLimit ∧ IncludedOutcome (write u)) ∨
        t ∈ acc.included) →
      t ∈ (writeTxLoop write gasLimit fuel queues acc).included := by
  intro fuel
  induction fuel with
  | zero =>
    intro queues acc hfuel hdisj
    rcases hdisj with ⟨q, hq, _, _, hsplit, _⟩ | hacc
    · exfalso
      have : queues = [] := by
        have hzero : packMeasure queues = 0 := Nat.le_zero.1 hfuel
        cases queues with
        | nil => rfl
        | cons a l =>
          rw [packMeasure_cons] at hzero
          omega
      rw [this] at hq
      cases hq
    · exact hacc
  | succ n ih =>
    intro queues acc hfuel hdisj
    cases hpb : pickBest queues with
    | none =>
      simp only [writeTxLoop, hpb]
      rcases hdisj with ⟨q, hq, _⟩ | hacc
      · exfalso
        rw [(pickBest_none_iff queues).1 hpb] at hq
        cases hq
      · exact hacc
    | some p =>
      obtain ⟨q, others⟩ := p
      have hperm := pickBest_perm queues q others hpb
      have hmeas : packMeasure (q :: others) = packMeasure queues := packMeasure_perm hperm
      cases q with
      | nil =>
        simp only [writeTxLoop, hpb]
        refine ih others acc ?_ ?_
        · rw [packMeasure_cons] at hmeas
          omega
        · rcases hdisj with ⟨q', hq', pre, post, hsplit, hcond⟩ | hacc
          · left
            refine ⟨q', ?_, pre, post, hsplit, hcond⟩
            have hne : q' ≠ [] := by
              rw [hsplit]
              intro he
              cases pre <;> cases he
            have : q' ∈ ([] : List Tx) :: others := hperm.symm.subset hq'
            rcases List.mem_cons.1 this with he | hm
            · exact absurd he hne
            · exact hm
          · right; exact hacc
      | cons t0 rst =>
        rw [packMeasure_cons] at hmeas
        simp only [List.length_cons] at hmeas
        rcases hdisj with ⟨q', hq', pre, post, hsplit, hcond⟩ | hacc
        · have hq'mem : q' = t0 :: rst ∨ q' ∈ others :=
            List.mem_cons.1 (hperm.symm.subset hq')
          rcases hq'mem with hq'eq | hq'o
          · -- the witness queue is the picked one
            cases pre with
            | nil =>
              simp only [List.nil_append] at hsplit
              rw [hq'eq] at hsplit
              injection hsplit with he1 he2
              obtain ⟨hgle, hinc⟩ := hcond t (by simp)
              have hgas : ¬gasLimit < t0.gas := by
                rw [he1]
                omega
              rcases hinc with hsucc | hfail
              · rw [← he1] at hsucc
                simp only [writeTxLoop, hpb, if_neg hgas, hsucc]
                refine ih (others ++ [rst]) _ ?_ ?_
                · rw [packMeasure_append_singleton]
                  omega
                · right
                  rw [he1]
                  exact List.mem_append_right _ (List.mem_singleton.2 rfl)
              · rw [← he1] at hfail
                simp only [writeTxLoop, hpb, if_neg hgas, hfail]
                refine ih (others ++ [rst]) _ ?_ ?_
                · rw [packMeasure_append_singleton]
                  omega
                · right
                  rw [he1]
                  exact List.mem_append_right _ (List.mem_singleton.2 rfl)
            | cons p0 pre' =>
              rw [hq'eq] at hsplit
              simp only [List.cons_append] at hsplit
              injection hsplit with he1 he2
              obtain ⟨hgle, hinc⟩ := hcond p0 (by simp)
              have hgas : ¬gasLimit < t0.gas := by
                rw [he1]
                omega
              have hnext : (∃ q2, q2 ∈ others ++ [rst] ∧ ∃ pre2 post2,
                  q2 = pre2 ++ t :: post2 ∧
                  ∀ u ∈ pre2 ++ [t], u.gas ≤ gasLimit ∧ IncludedOutcome (write u)) ∨
                  t ∈ ({ acc with included := acc.included ++ [t0] } : PackResult).included := by
                left
                refine ⟨rst, List.mem_append_right _ (List.mem_singleton.2 rfl),
                  pre', post, he2, ?_⟩
                intro u hu
                refine hcond u ?_
                rcases List.mem_append.1 hu with hu | hu
                · exact List.mem_append_left _ (List.mem_cons_of_mem p0 hu)
                · exact List.mem_append_right _ hu
              rcases hinc with hsucc | hfail
              · rw [← he1] at hsucc
                simp only [writeTxLoop, hpb, if_neg hgas, hsucc]
                refine ih (others ++ [rst]) _ ?_ hnext
                rw [packMeasure_append_singleton]
                omega
              · rw [← he1] at hfail
                simp only [writeTxLoop, hpb, if_neg hgas, hfail]
                refine ih (others ++ [rst]) _ ?_ hnext
                rw [packMeasure_append_singleton]
                omega
          · -- the witness queue is one of the others: every branch keeps it
            have hleft : ∀ (acc2 : PackResult), (∃ q2, q2 ∈ others ∧ ∃ pre2 post2,
                q2 = pre2 ++ t :: post2 ∧
                ∀ u ∈ pre2 ++ [t], u.gas ≤ gasLimit ∧ IncludedOutcome (write u)) ∨
                t ∈ acc2.included := by
              intro acc2
              left
              exact ⟨q', hq'o, pre, post, hsplit, hcond⟩
            have hlefta : ∀ (acc2 : PackResult) (r : List Tx), (∃ q2,
                q2 ∈ others ++ [r] ∧ ∃ pre2 post2, q2 = pre2 ++ t :: post2 ∧
                ∀ u ∈ pre2 ++ [t], u.gas ≤ gasLimit ∧ IncludedOutcome (write u)) ∨
                t ∈ acc2.included := by
              intro acc2 r
              left
              exact ⟨q', List.mem_append_left _ hq'o, pre, post, hsplit, hcond⟩
            by_cases hgas : gasLimit < t0.gas
            · simp only [writeTxLoop, hpb, if_pos hgas]
              refine ih others _ ?_ (hleft _)
              omega
            · cases hwt : write t0 with
              | success =>
                simp only [writeTxLoop, hpb, if_neg hgas, hwt]
                refine ih (others ++ [rst]) _ ?_ (hlefta _ rst)
                rw [packMeasure_append_singleton]
                omega
              | failedWithReceipt =>
                simp only [writeTxLoop, hpb, if_neg hgas, hwt]
                refine ih (others ++ [rst]) _ ?_ (hlefta _ rst)
                rw [packMeasure_append_singleton]
                omega
              | gasLimitReached =>
                simp only [writeTxLoop, hpb, if_neg hgas, hwt]
                refine ih others _ ?_ (hleft _)
                omega
              | notExecutable =>
                simp only [writeTxLoop, hpb, if_neg hgas, hwt]
                refine ih others _ ?_ (hleft _)
                omega
              | recoverable =>
                simp only [writeTxLoop, hpb, if_neg hgas, hwt]
                refine ih others _ ?_ (hleft _)
                omega
        · -- t is already included; every branch only appends to included
          have hacc2 : ∀ (x : Tx), t ∈ acc.included ++ [x] :=
            fun x => List.mem_append_left _ hacc
          by_cases hgas : gasLimit < t0.gas
          · simp only [writeTxLoop, hpb, if_pos hgas]
            refine ih others _ ?_ (Or.inr hacc)
            omega
          · cases hwt : write t0 with
            | success =>
              simp only [writeTxLoop, hpb, if_neg hgas, hwt]
              refine ih (others ++ [rst]) _ ?_ (Or.inr (hacc2 t0))
              rw [packMeasure_append_singleton]
              omega
            | failedWithReceipt =>
              simp only [writeTxLoop, hpb, if_neg hgas, hwt]
              refine ih (others ++ [rst]) _ ?_ (Or.inr (hacc2 t0))
              rw [packMeasure_append_singleton]
              omega
            | gasLimitReached =>
              simp only [writeTxLoop, hpb, if_neg hgas, hwt]
              refine ih others _ ?_ (Or.inr hacc)
              omega
            | notExecutable =>
              simp only [writeTxLoop, hpb, if_neg hgas, hwt]
              refine ih others _ ?_ (Or.inr hacc)
              omega
            | recoverable =>
              simp only [writeTxLoop, hpb, if_neg hgas, hwt]
              refine ih others _ ?_ (Or.inr hacc)
              omega

/-- C2 (amended): the drop list returned by writeTransactions contains
only transactions that themselves failed (own gas above the block gas
limit, or reported not-executable); when the executor reports
not-executable for a transaction, the pending transactions queued behind
it in its sender's queue are skipped for the current block — neither
included nor dropped nor demoted, with no failed receipt — and packing
continues with the remaining senders: any transaction whose whole
same-queue prefix (itself included) applies successfully within the gas
limit is still included. -/
theorem writeTransactions_notExecutable_drop (write : Tx → ExecResult) (gasLimit : Nat)
    (queues : List (List Tx)) (tx t' : Tx) :
    (∀ u ∈ (writeTransactions write gasLimit queues).shouldDrop,
        gasLimit < u.gas ∨ write u = .notExecutable) ∧
      (write tx = .notExecutable → (∀ q ∈ queues, q.Nodup) →
        (∀ q ∈ queues, t' ∈ q → OccursBlocked tx t' q) →
        t' ∉ (writeTransactions write gasLimit queues).included ∧
          t' ∉ (writeTransactions write gasLimit queues).shouldDrop ∧
          t' ∉ (writeTransactions write gasLimit queues).shouldDemote ∧
          t' ∉ (writeTransactions write gasLimit queues).failedReceipts) ∧
      (∀ q ∈ queues, ∀ pre u post, q = pre ++ u :: post →
        (∀ v ∈ pre ++ [u], v.gas ≤ gasLimit ∧ IncludedOutcome (write v)) →
        u ∈ (writeTransactions write gasLimit queues).included) := by
  refine ⟨?_, ?_, ?_⟩
  · refine writeTxLoop_shouldDrop_failed write gasLimit (packMeasure queues) queues
      ⟨[], [], [], []⟩ ?_
    intro u hu
    cases hu
  · intro hw hnd hbl
    exact writeTxLoop_blocked_excluded write gasLimit tx t' hw (packMeasure queues)
      queues ⟨[], [], [], []⟩ hnd hbl (List.not_mem_nil t') (List.not_mem_nil t')
      (List.not_mem_nil t') (List.not_mem_nil t')
  · intro q hq pre u post hsplit hcond
    exact writeTxLoop_reaches write gasLimit u (packMeasure queues) queues
      ⟨[], [], [], []⟩ (le_refl _) (Or.inl ⟨q, hq, pre, post, hsplit, hcond⟩)

/-- C2 counterexample, the scenario of ibft_test.go "transaction not
executable account should be dropped": one sender with nonces 1..4 and
the nonce-2 transaction not executable.  The claim predicts a drop set
of three transactions (nonce 2 plus the higher-nonce 3 and 4); the code
returns exactly [nonce 2] (the test asserts expectedDropTxnsCount = 1)
and nonces 3 and 4 are not dropped. -/
theorem writeTransactions_drop_only_failing :
    (writeTransactions
        (fun u => if u.nonce == 2 then ExecResult.notExecutable else .success) 1000
        [[⟨0, 1, 1, 1⟩, ⟨0, 2, 1, 1⟩, ⟨0, 3, 1, 1⟩, ⟨0, 4, 1, 1⟩]]).shouldDrop =
        [⟨0, 2, 1, 1⟩] ∧
      (⟨0, 3, 1, 1⟩ : Tx) ∉ (writeTransactions
        (fun u => if u.nonce == 2 then ExecResult.notExecutable else .success) 1000
        [[⟨0, 1, 1, 1⟩, ⟨0, 2, 1, 1⟩, ⟨0, 3, 1, 1⟩, ⟨0, 4, 1, 1⟩]]).shouldDrop ∧
      (⟨0, 4, 1, 1⟩ : Tx) ∉ (writeTransactions
        (fun u => if u.nonce == 2 then ExecResult.notExecutable else .success) 1000
        [[⟨0, 1, 1, 1⟩, ⟨0, 2, 1, 1⟩, ⟨0, 3, 1, 1⟩, ⟨0, 4, 1, 1⟩]]).shouldDrop := by
  refine ⟨by decide, by decide, by decide⟩

/-- Witness for C2: sender 0 has nonces 1..3 with nonce 2 not
executable, sender 5 has a single successful transaction; nonce 3 is
neither included nor dropped and sender 5's transaction is still
included. -/
theorem writeTransactions_notExecutable_drop_witness :
    ((⟨0, 3, 1, 1⟩ : Tx) ∉ (writeTransactions
        (fun u => if u.nonce == 2 then ExecResult.notExecutable else .success) 1000
        [[⟨0, 1, 1, 1⟩, ⟨0, 2, 1, 1⟩, ⟨0, 3, 1, 1⟩], [⟨5, 1, 2, 1⟩]]).included ∧
      (⟨0, 3, 1, 1⟩ : Tx) ∉ (writeTransactions
        (fun u => if u.nonce == 2 then ExecResult.notExecutable else .success) 1000
        [[⟨0, 1, 1, 1⟩, ⟨0, 2, 1, 1⟩, ⟨0, 3, 1, 1⟩], [⟨5, 1, 2, 1⟩]]).shouldDrop ∧
      (⟨0, 3, 1, 1⟩ : Tx) ∉ (writeTransactions
        (fun u => if u.nonce == 2 then ExecResult.notExecutable else .success) 1000
        [[⟨0, 1, 1, 1⟩, ⟨0, 2, 1, 1⟩, ⟨0, 3, 1, 1⟩], [⟨5, 1, 2, 1⟩]]).shouldDemote ∧
      (⟨0, 3, 1, 1⟩ : Tx) ∉ (writeTransactions
        (fun u => if u.nonce == 2 then ExecResult.notExecutable else .success) 1000
        [[⟨0, 1, 1, 1⟩, ⟨0, 2, 1, 1⟩, ⟨0, 3, 1, 1⟩], [⟨5, 1, 2, 1⟩]]).failedReceipts) ∧
      (⟨5, 1, 2, 1⟩ : Tx) ∈ (writeTransactions
        (fun u => if u.nonce == 2 then ExecResult.notExecutable else .success) 1000
        [[⟨0, 1, 1, 1⟩, ⟨0, 2, 1, 1⟩, ⟨0, 3, 1, 1⟩], [⟨5, 1, 2, 1⟩]]).included := by
  constructor
  · refine (writeTransactions_notExecutable_drop
      (fun u => if u.nonce == 2 then ExecResult.notExecutable else .success) 1000
      [[⟨0, 1, 1, 1⟩, ⟨0, 2, 1, 1⟩, ⟨0, 3, 1, 1⟩], [⟨5, 1, 2, 1⟩]]
      ⟨0, 2, 1, 1⟩ ⟨0, 3, 1, 1⟩).2.1 rfl (by decide) ?_
    intro q hq ht
    rcases List.mem_cons.1 hq with rfl | hq2
    · exact ⟨[⟨0, 1, 1, 1⟩], [], [], rfl⟩
    · rcases List.mem_cons.1 hq2 with rfl | hq3
      · exact absurd ht (by decide)
      · cases hq3
  · refine (writeTransactions_notExecutable_drop
      (fun u => if u.nonce == 2 then ExecResult.notExecutable else .success) 1000
      [[⟨0, 1, 1, 1⟩, ⟨0, 2, 1, 1⟩, ⟨0, 3, 1, 1⟩], [⟨5, 1, 2, 1⟩]]
      ⟨0, 2, 1, 1⟩ ⟨0, 3, 1, 1⟩).2.2 [⟨5, 1, 2, 1⟩] (by decide) [] ⟨5, 1, 2, 1⟩ [] rfl ?_
    intro v hv
    rcases List.mem_singleton.1 (by simpa using hv) with rfl
    exact ⟨by decide, Or.inl rfl⟩

/-- Conformance to ibft_test.go "valid transaction is included in
transition": a single successful transaction is included and nothing is
dropped, demoted or given a failed receipt. -/
lemma writeTransactions_conformance_valid :
    writeTransactions (fun _ => .success) 1000 [[⟨0, 1, 1, 1⟩]] =
      ⟨[⟨0, 1, 1, 1⟩], [], [], []⟩ := by decide

/-- Conformance to ibft_test.go "transaction whose gas exceeds block gas
limit is included but with failedReceipt": with block gas limit 1000 and
the nonce-2 transaction carrying gas 10001, only nonce 1 is included,
nonce 2 receives a failed receipt and is dropped, nothing is demoted,
and the sender's later nonces are not packed. -/
lemma writeTransactions_conformance_gasLimit :
    writeTransactions (fun u => if u.nonce == 2 then ExecResult.gasLimitReached else .success)
        1000 [[⟨0, 1, 1, 1⟩, ⟨0, 2, 1, 10001⟩, ⟨0, 3, 1, 1⟩, ⟨0, 4, 1, 1⟩]] =
      ⟨[⟨0, 1, 1, 1⟩], [⟨0, 2, 1, 10001⟩], [], [⟨0, 2, 1, 10001⟩]⟩ := by decide

/-- Conformance to ibft_test.go "transactions execute failed should be
included too": all four transactions apply (the reverted one included
via the executor, not through a packer-written receipt), nothing
dropped or demoted. -/
lemma writeTransactions_conformance_failed :
    writeTransactions (fun u => if u.nonce == 3 then ExecResult.failedWithReceipt else .success)
        1000 [[⟨0, 1, 1, 1⟩, ⟨0, 2, 1, 1⟩, ⟨0, 3, 1, 1⟩, ⟨0, 4, 1, 1⟩]] =
      ⟨[⟨0, 1, 1, 1⟩, ⟨0, 2, 1, 1⟩, ⟨0, 3, 1, 1⟩, ⟨0, 4, 1, 1⟩], [], [], []⟩ := by decide

lemma sendersAt_filter_ne (msgs : List (Nat × List Nat)) (rd r : Nat) (hne : r ≠ rd) :
    sendersAt (msgs.filter (fun p => p.1 != rd)) r = sendersAt msgs r := by
  induction msgs with
  | nil => rfl
  | cons p rest ih =>
    obtain ⟨a, l⟩ := p
    by_cases ha : a = rd
    · subst ha
      have h1 : sendersAt ((a, l) :: rest) r = sendersAt rest r := by
        simp [sendersAt, if_neg (Ne.symm hne)]
      rw [h1, ← ih]
      congr 1
      simp [List.filter_cons]
    · have h2 : List.filter (fun p => p.1 != rd) ((a, l) :: rest) =
          (a, l) :: List.filter (fun p => p.1 != rd) rest := by
        simp [List.filter_cons, ha]
      rw [h2]
      by_cases har : a = r
      · simp [sendersAt, har]
      · simp only [sendersAt, if_neg har]
        exact ih

lemma addRoundMessage_count (s : RCState) (m : RCMessage)
    (hfresh : m.sender ∉ sendersAt s.roundMessages m.round) :
    (addRoundMessage s m).2 = (sendersAt s.roundMessages m.round).length + 1 := by
  simp [addRoundMessage, hfresh]

lemma addRoundMessage_sendersAt_same (s : RCState) (m : RCMessage)
    (hfresh : m.sender ∉ sendersAt s.roundMessages m.round) :
    sendersAt (addRoundMessage s m).1.roundMessages m.round =
      sendersAt s.roundMessages m.round ++ [m.sender] := by
  simp [addRoundMessage, hfresh, sendersAt]

lemma addRoundMessage_sendersAt_other (s : RCState) (m : RCMessage) (r : Nat)
    (hne : r ≠ m.round) :
    sendersAt (addRoundMessage s m).1.roundMessages r = sendersAt s.roundMessages r := by
  simp only [addRoundMessage]
  simp only [sendersAt, if_neg (Ne.symm hne)]
  exact sendersAt_filter_ne s.roundMessages m.round r hne

lemma addRoundMessage_current (s : RCState) (m : RCMessage) :
    (addRoundMessage s m).1.current = s.current := rfl

lemma addRoundMessage_sequence (s : RCState) (m : RCMessage) :
    (addRoundMessage s m).1.sequence = s.sequence := rfl

lemma addRoundMessage_round (s : RCState) (m : RCMessage) :
    (addRoundMessage s m).1.round = s.round := rfl

lemma addRoundMessage_validators (s : RCState) (m : RCMessage) :
    (addRoundMessage s m).1.validators = s.validators := rfl

lemma addRoundMessage_self (s : RCState) (m : RCMessage) :
    (addRoundMessage s m).1.self = s.self := rfl

lemma processRoundChange_guards (s : RCState) (m : RCMessage)
    (hcur : s.current = .roundChangeState) (hseq : m.sequence = s.sequence)
    (hval : m.sender ∈ s.validators) :
    processRoundChange s m =
      (if (addRoundMessage s m).2 = numValid s then
        ({ (addRoundMessage s m).1 with current := .acceptState, round := m.round }, [])
      else if (addRoundMessage s m).2 = maxFaultyNodes s + 1 ∧ s.round < m.round then
        ({ (addRoundMessage s m).1 with round := m.round }, [⟨s.sequence, m.round, s.self⟩])
      else ((addRoundMessage s m).1, [])) := by
  unfold processRoundChange
  rw [if_neg (not_not_intro hcur), if_neg (not_not_intro hseq), if_neg (not_not_intro hval)]

lemma processRoundChange_quiet (s : RCState) (m : RCMessage)
    (hcur : s.current = .roundChangeState) (hseq : m.sequence = s.sequence)
    (hval : m.sender ∈ s.validators)
    (hfresh : m.sender ∉ sendersAt s.roundMessages m.round)
    (hnv : (sendersAt s.roundMessages m.round).length + 1 ≠ numValid s)
    (hnw : (sendersAt s.roundMessages m.round).length + 1 ≠ maxFaultyNodes s + 1) :
    processRoundChange s m = ((addRoundMessage s m).1, []) := by
  rw [processRoundChange_guards s m hcur hseq hval, addRoundMessage_count s m hfresh,
    if_neg hnv, if_neg (fun hc => hnw hc.1)]

lemma processRoundChange_weak (s : RCState) (m : RCMessage)
    (hcur : s.current = .roundChangeState) (hseq : m.sequence = s.sequence)
    (hval : m.sender ∈ s.validators)
    (hfresh : m.sender ∉ sendersAt s.roundMessages m.round)
    (hnv : (sendersAt s.roundMessages m.round).length + 1 ≠ numValid s)
    (hw : (sendersAt s.roundMessages m.round).length + 1 = maxFaultyNodes s + 1)
    (hlt : s.round < m.round) :
    processRoundChange s m = ({ (addRoundMessage s m).1 with round := m.round },
      [⟨s.sequence, m.round, s.self⟩]) := by
  rw [processRoundChange_guards s m hcur hseq hval, addRoundMessage_count s m hfresh,
    if_neg hnv, if_pos ⟨hw, hlt⟩]

lemma processRoundChange_strong (s : RCState) (m : RCMessage)
    (hcur : s.current = .roundChangeState) (hseq : m.sequence = s.sequence)
    (hval : m.sender ∈ s.validators)
    (hfresh : m.sender ∉ sendersAt s.roundMessages m.round)
    (hv : (sendersAt s.roundMessages m.round).length + 1 = numValid s) :
    processRoundChange s m =
      ({ (addRoundMessage s m).1 with current := .acceptState, round := m.round }, []) := by
  rw [processRoundChange_guards s m hcur hseq hval, addRoundMessage_count s m hfresh,
    if_pos hv]

lemma processRoundChangeMsgs_cons (s : RCState) (m : RCMessage) (rest : List RCMessage) :
    processRoundChangeMsgs s (m :: rest) =
      ((processRoundChangeMsgs (processRoundChange s m).1 rest).1,
        (processRoundChange s m).2 ++
          (processRoundChangeMsgs (processRoundChange s m).1 rest).2) := rfl

lemma processRoundChangeMsgs_notRC (s : RCState) (h : s.current ≠ .roundChangeState) :
    ∀ ms, processRoundChangeMsgs s ms = (s, []) := by
  intro ms
  induction ms with
  | nil => rfl
  | cons m rest ih =>
    have h1 : processRoundChange s m = (s, []) := by
      unfold processRoundChange
      rw [if_pos h]
    rw [processRoundChangeMsgs_cons, h1]
    simp [ih]

lemma processRoundChangeMsgs_quiet (r seqNum : Nat) :
    ∀ (ss : List Nat) (s : RCState),
      s.current = .roundChangeState →
      seqNum = s.sequence →
      ss.Nodup →
      (∀ a ∈ ss, a ∈ s.validators) →
      (∀ a ∈ ss, a ∉ sendersAt s.roundMessages r) →
      (∀ k, 0 < k → k ≤ ss.length →
        (sendersAt s.roundMessages r).length + k ≠ numValid s ∧
          (sendersAt s.roundMessages r).length + k ≠ maxFaultyNodes s + 1) →
      (processRoundChangeMsgs s (msgsFor seqNum r ss)).1.current = s.current ∧
        (processRoundChangeMsgs s (msgsFor seqNum r ss)).1.sequence = s.sequence ∧
        (processRoundChangeMsgs s (msgsFor seqNum r ss)).1.round = s.round ∧
        (processRoundChangeMsgs s (msgsFor seqNum r ss)).1.validators = s.validators ∧
        (processRoundChangeMsgs s (msgsFor seqNum r ss)).1.self = s.self ∧
        sendersAt (processRoundChangeMsgs s (msgsFor seqNum r ss)).1.roundMessages r =
          sendersAt s.roundMessages r ++ ss ∧
        (processRoundChangeMsgs s (msgsFor seqNum r ss)).2 = [] := by
  intro ss
  induction ss with
  | nil =>
    intro s _ _ _ _ _ _
    exact ⟨rfl, rfl, rfl, rfl, rfl, by simp [msgsFor, processRoundChangeMsgs], rfl⟩
  | cons a ss' ih =>
    intro s hcur hseq hnd hsub hfresh hthresh
    have hm : msgsFor seqNum r (a :: ss') = ⟨seqNum, r, a⟩ :: msgsFor seqNum r ss' := rfl
    have hfresh0 : a ∉ sendersAt s.roundMessages r := hfresh a (List.mem_cons_self a ss')
    have hstep : processRoundChange s ⟨seqNum, r, a⟩ =
        ((addRoundMessage s ⟨seqNum, r, a⟩).1, []) := by
      refine processRoundChange_quiet s ⟨seqNum, r, a⟩ hcur hseq
        (hsub a (List.mem_cons_self a ss')) hfresh0 ?_ ?_
      · exact ((hthresh 1 (by omega) (by simp)).1 : _)
      · exact ((hthresh 1 (by omega) (by simp)).2 : _)
    have hsend1 : sendersAt (addRoundMessage s ⟨seqNum, r, a⟩).1.roundMessages r =
        sendersAt s.roundMessages r ++ [a] :=
      addRoundMessage_sendersAt_same s ⟨seqNum, r, a⟩ hfresh0
    obtain ⟨ihc, ihs, ihr, ihv, ihself, ihsend, ihout⟩ :=
      ih (addRoundMessage s ⟨seqNum, r, a⟩).1
        ((addRoundMessage_current s _).symm ▸ hcur)
        (hseq.trans (addRoundMessage_sequence s _).symm)
        hnd.of_cons
        (fun b hb => (addRoundMessage_validators s _).symm ▸ hsub b (List.mem_cons_of_mem a hb))
        (fun b hb => by
          rw [hsend1]
          refine notMem_append_singleton (hfresh b (List.mem_cons_of_mem a hb)) ?_
          intro he
          rw [List.nodup_cons] at hnd
          exact hnd.1 (he ▸ hb))
        (fun k hk1 hk2 => by
          rw [hsend1]
          have h3 := hthresh (k + 1) (by omega) (by simp only [List.length_cons]; omega)
          constructor
          · have : numValid (addRoundMessage s ⟨seqNum, r, a⟩).1 = numValid s := rfl
            rw [this]
            simp only [List.length_append, List.length_cons, List.length_nil]
            omega
          · have : maxFaultyNodes (addRoundMessage s ⟨seqNum, r, a⟩).1 = maxFaultyNodes s := rfl
            rw [this]
            simp only [List.length_append, List.length_cons, List.length_nil]
            omega)
    rw [hm, processRoundChangeMsgs_cons, hstep]
    dsimp only
    refine ⟨ihc.trans (addRoundMessage_current s _),
      ihs.trans (addRoundMessage_sequence s _),
      ihr.trans (addRoundMessage_round s _),
      ihv.trans (addRoundMessage_validators s _),
      ihself.trans (addRoundMessage_self s _), ?_, by rw [ihout]; rfl⟩
    rw [ihsend, hsend1, List.append_assoc]
    rfl

lemma processRoundChangeMsgs_noStrong (r seqNum : Nat) :
    ∀ (ss : List Nat) (s : RCState),
      s.current = .roundChangeState →
      seqNum = s.sequence →
      ss.Nodup →
      (∀ a ∈ ss, a ∈ s.validators) →
      (∀ a ∈ ss, a ∉ sendersAt s.roundMessages r) →
      (∀ k, 0 < k → k ≤ ss.length →
        (sendersAt s.roundMessages r).length + k ≠ numValid s) →
      (processRoundChangeMsgs s (msgsFor seqNum r ss)).1.current = s.current ∧
        (processRoundChangeMsgs s (msgsFor seqNum r ss)).1.sequence = s.sequence ∧
        ((processRoundChangeMsgs s (msgsFor seqNum r ss)).1.round = s.round ∨
          (processRoundChangeMsgs s (msgsFor seqNum r ss)).1.round = r) ∧
        (processRoundChangeMsgs s (msgsFor seqNum r ss)).1.validators = s.validators ∧
        (processRoundChangeMsgs s (msgsFor seqNum r ss)).1.self = s.self ∧
        sendersAt (processRoundChangeMsgs s (msgsFor seqNum r ss)).1.roundMessages r =
          sendersAt s.roundMessages r ++ ss := by
  intro ss
  induction ss with
  | nil =>
    intro s _ _ _ _ _ _
    exact ⟨rfl, rfl, Or.inl rfl, rfl, rfl, by simp [msgsFor, processRoundChangeMsgs]⟩
  | cons a ss' ih =>
    intro s hcur hseq hnd hsub hfresh hthresh
    have hm : msgsFor seqNum r (a :: ss') = ⟨seqNum, r, a⟩ :: msgsFor seqNum r ss' := rfl
    have hfresh0 : a ∉ sendersAt s.roundMessages r := hfresh a (List.mem_cons_self a ss')
    have hnv1 : (sendersAt s.roundMessages r).length + 1 ≠ numValid s :=
      hthresh 1 (by omega) (by simp)
    have hsend1 : sendersAt (addRoundMessage s ⟨seqNum, r, a⟩).1.roundMessages r =
        sendersAt s.roundMessages r ++ [a] :=
      addRoundMessage_sendersAt_same s ⟨seqNum, r, a⟩ hfresh0
    -- the state after the one message, covering both the quiet and the
    -- weak-certificate outcome: round is either kept or set to r, and
    -- everything else follows addRoundMessage
    have hone : ∃ s1, (processRoundChange s ⟨seqNum, r, a⟩).1 = s1 ∧
        s1.current = s.current ∧ s1.sequence = s.sequence ∧
        (s1.round = s.round ∨ s1.round = r) ∧ s1.validators = s.validators ∧
        s1.self = s.self ∧
        s1.roundMessages = (addRoundMessage s ⟨seqNum, r, a⟩).1.roundMessages := by
      by_cases hw : (sendersAt s.roundMessages r).length + 1 = maxFaultyNodes s + 1 ∧
          s.round < r
      · rw [processRoundChange_weak s ⟨seqNum, r, a⟩ hcur hseq
          (hsub a (List.mem_cons_self a ss')) hfresh0 hnv1 hw.1 hw.2]
        exact ⟨_, rfl, addRoundMessage_current s ⟨seqNum, r, a⟩,
          addRoundMessage_sequence s ⟨seqNum, r, a⟩, Or.inr rfl,
          addRoundMessage_validators s ⟨seqNum, r, a⟩,
          addRoundMessage_self s ⟨seqNum, r, a⟩, rfl⟩
      · have hq : processRoundChange s ⟨seqNum, r, a⟩ =
            ((addRoundMessage s ⟨seqNum, r, a⟩).1, []) := by
          rw [processRoundChange_guards s ⟨seqNum, r, a⟩ hcur hseq
            (hsub a (List.mem_cons_self a ss')), addRoundMessage_count s _ hfresh0,
            if_neg hnv1, if_neg hw]
        rw [hq]
        exact ⟨_, rfl, addRoundMessage_current s ⟨seqNum, r, a⟩,
          addRoundMessage_sequence s ⟨seqNum, r, a⟩,
          Or.inl (addRoundMessage_round s ⟨seqNum, r, a⟩),
          addRoundMessage_validators s ⟨seqNum, r, a⟩,
          addRoundMessage_self s ⟨seqNum, r, a⟩, rfl⟩
    obtain ⟨s1, hs1, h1c, h1s, h1r, h1v, h1self, h1rm⟩ := hone
    have hsend1' : sendersAt s1.roundMessages r = sendersAt s.roundMessages r ++ [a] := by
      rw [h1rm, hsend1]
    obtain ⟨ihc, ihs, ihr, ihv, ihself, ihsend⟩ :=
      ih s1 (h1c.trans hcur) (hseq.trans h1s.symm) hnd.of_cons
        (fun b hb => h1v.symm ▸ hsub b (List.mem_cons_of_mem a hb))
        (fun b hb => by
          rw [hsend1']
          refine notMem_append_singleton (hfresh b (List.mem_cons_of_mem a hb)) ?_
          intro he
          rw [List.nodup_cons] at hnd
          exact hnd.1 (he ▸ hb))
        (fun k hk1 hk2 => by
          rw [hsend1']
          have h3 := hthresh (k + 1) (by omega) (by simp only [List.length_cons]; omega)
          have hnv : numValid s1 = numValid s := by
            unfold numValid maxFaultyNodes
            rw [h1v]
          rw [hnv]
          simp only [List.length_append, List.length_cons, List.length_nil]
          omega)
    rw [hm, processRoundChangeMsgs_cons, hs1]
    dsimp only
    refine ⟨ihc.trans h1c, ihs.trans h1s, ?_, ihv.trans h1v, ihself.trans h1self, ?_⟩
    · rcases ihr with ihr | ihr
      · rcases h1r with h1r | h1r
        · exact Or.inl (ihr.trans h1r)
        · exact Or.inr (ihr.trans h1r)
      · exact Or.inr ihr
    · rw [ihsend, hsend1', List.append_assoc]
      rfl

lemma processRoundChangeMsgs_append (ms1 : List RCMessage) :
    ∀ (s : RCState) (ms2 : List RCMessage),
      (processRoundChangeMsgs s (ms1 ++ ms2)).1 =
        (processRoundChangeMsgs (processRoundChangeMsgs s ms1).1 ms2).1 ∧
      (processRoundChangeMsgs s (ms1 ++ ms2)).2 =
        (processRoundChangeMsgs s ms1).2 ++
          (processRoundChangeMsgs (processRoundChangeMsgs s ms1).1 ms2).2 := by
  induction ms1 with
  | nil => intro s ms2; exact ⟨rfl, rfl⟩
  | cons m rest ih =>
    intro s ms2
    rw [List.cons_append, processRoundChangeMsgs_cons, processRoundChangeMsgs_cons]
    dsimp only
    obtain ⟨ih1, ih2⟩ := ih (processRoundChange s m).1 ms2
    constructor
    · rw [ih1]
    · rw [ih2, List.append_assoc]

/-- C3 (amended): in RoundChangeState with a clean sender set for round
r, for a validator set with f = MaxFaultyNodes: when f + 1 is not also
the strong-certificate count (that is, except for validator sets of
size 4 to 6, where f + 1 = 2f), receiving exactly f + 1 distinct
RoundChange messages for the current sequence at a round r above the
local round fast-forwards the local round to r, stays in
RoundChangeState and broadcasts one fresh RoundChange at r; receiving
only f such messages changes nothing and broadcasts nothing. -/
theorem roundChange_weak_certificate (s : RCState) (r : Nat) (ss : List Nat)
    (hcur : s.current = .roundChangeState) (hnd : ss.Nodup)
    (hsub : ∀ a ∈ ss, a ∈ s.validators)
    (hclean : sendersAt s.roundMessages r = [])
    (hlt : s.round < r) :
    (ss.length = maxFaultyNodes s + 1 → maxFaultyNodes s + 1 ≠ numValid s →
      (processRoundChangeMsgs s (msgsFor s.sequence r ss)).1.current =
          .roundChangeState ∧
        (processRoundChangeMsgs s (msgsFor s.sequence r ss)).1.round = r ∧
        (processRoundChangeMsgs s (msgsFor s.sequence r ss)).1.sequence = s.sequence ∧
        (processRoundChangeMsgs s (msgsFor s.sequence r ss)).2 =
          [⟨s.sequence, r, s.self⟩]) ∧
      (ss.length = maxFaultyNodes s →
        (processRoundChangeMsgs s (msgsFor s.sequence r ss)).1.current =
            .roundChangeState ∧
          (processRoundChangeMsgs s (msgsFor s.sequence r ss)).1.round = s.round ∧
          (processRoundChangeMsgs s (msgsFor s.sequence r ss)).2 = []) := by
  have hnveq : numValid s = 2 * maxFaultyNodes s := rfl
  constructor
  · intro hlen hne
    rcases List.eq_nil_or_concat ss with rfl | ⟨front, b, rfl⟩
    · exfalso
      simp only [List.length_nil] at hlen
      omega
    · rw [List.concat_eq_append] at hnd hsub hlen ⊢
      have hfl : front.length = maxFaultyNodes s := by
        simp only [List.length_append, List.length_cons, List.length_nil] at hlen
        omega
      have hndf : front.Nodup ∧ b ∉ front := by
        rw [List.nodup_append] at hnd
        refine ⟨hnd.1, ?_⟩
        intro hb
        exact hnd.2.2 hb (List.mem_singleton.2 rfl)
      have hq := processRoundChangeMsgs_quiet r s.sequence front s hcur rfl hndf.1
        (fun a ha => hsub a (List.mem_append_left _ ha))
        (fun a _ => by rw [hclean]; exact List.not_mem_nil a)
        (fun k hk1 hk2 => by
          rw [hclean, hnveq]
          simp only [List.length_nil]
          rw [hfl] at hk2
          have hge1 : 1 ≤ maxFaultyNodes s := by omega
          omega)
      obtain ⟨ihc, ihs, ihr, ihv, ihself, ihsend, ihout⟩ := hq
      have hmsplit : msgsFor s.sequence r (front ++ [b]) =
          msgsFor s.sequence r front ++ [⟨s.sequence, r, b⟩] := by
        simp [msgsFor]
      obtain ⟨hap1, hap2⟩ :=
        processRoundChangeMsgs_append (msgsFor s.sequence r front) s
          [⟨s.sequence, r, b⟩]
      set s1 := (processRoundChangeMsgs s (msgsFor s.sequence r front)).1 with hs1def
      have hsend1 : sendersAt s1.roundMessages r = front := by
        rw [ihsend, hclean]
        rfl
      have hnv1 : numValid s1 = numValid s := by
        unfold numValid maxFaultyNodes
        rw [ihv]
      have hmf1 : maxFaultyNodes s1 = maxFaultyNodes s := by
        unfold maxFaultyNodes
        rw [ihv]
      have hwstep : processRoundChange s1 ⟨s.sequence, r, b⟩ =
          ({ (addRoundMessage s1 ⟨s.sequence, r, b⟩).1 with round := r },
            [⟨s.sequence, r, s.self⟩]) := by
        have hres := processRoundChange_weak s1 ⟨s.sequence, r, b⟩
          (ihc.trans hcur) ihs.symm
          (by rw [ihv]; exact hsub b (List.mem_append_right _ (List.mem_singleton.2 rfl)))
          (by rw [hsend1]; exact hndf.2)
          (by rw [hsend1, hnv1, hfl, hnveq]; omega)
          (by rw [hsend1, hmf1, hfl])
          (by rw [ihr]; exact hlt)
        rw [hres, ihs, ihself]
      rw [hmsplit]
      refine ⟨?_, ?_, ?_, ?_⟩
      · rw [hap1, processRoundChangeMsgs_cons, hwstep]
        dsimp only [processRoundChangeMsgs]
        exact (addRoundMessage_current s1 _).trans (ihc.trans hcur)
      · rw [hap1, processRoundChangeMsgs_cons, hwstep]
        dsimp only [processRoundChangeMsgs]
      · rw [hap1, processRoundChangeMsgs_cons, hwstep]
        dsimp only [processRoundChangeMsgs]
        exact (addRoundMessage_sequence s1 _).trans ihs
      · rw [hap2, ihout, processRoundChangeMsgs_cons, hwstep]
        dsimp only [processRoundChangeMsgs]
        rfl
  · intro hlen
    have hq := processRoundChangeMsgs_quiet r s.sequence ss s hcur rfl hnd hsub
      (fun a _ => by rw [hclean]; exact List.not_mem_nil a)
      (fun k hk1 hk2 => by
        rw [hclean, hnveq]
        simp only [List.length_nil]
        rw [hlen] at hk2
        have hge1 : 1 ≤ maxFaultyNodes s := by omega
        omega)
    obtain ⟨ihc, _, ihr, _, _, _, ihout⟩ := hq
    exact ⟨ihc.trans hcur, ihr, ihout⟩

/-- C4 (amended): in RoundChangeState with a clean sender set for round
r, for a validator set with f = MaxFaultyNodes at least 1 (at least four
validators), receiving Q = 2f + 1 distinct RoundChange messages for the
current sequence at round r moves the node to AcceptState with the local
round set to r and the sequence unchanged (the transition fires once the
strong count of messages from other validators is reached; the remaining
messages are ignored). -/
theorem roundChange_strong_certificate (s : RCState) (r : Nat) (ss : List Nat)
    (hcur : s.current = .roundChangeState) (hnd : ss.Nodup)
    (hsub : ∀ a ∈ ss, a ∈ s.validators)
    (hclean : sendersAt s.roundMessages r = [])
    (hf : 1 ≤ maxFaultyNodes s)
    (hlen : ss.length = 2 * maxFaultyNodes s + 1) :
    (processRoundChangeMsgs s (msgsFor s.sequence r ss)).1.current = .acceptState ∧
      (processRoundChangeMsgs s (msgsFor s.sequence r ss)).1.round = r ∧
      (processRoundChangeMsgs s (msgsFor s.sequence r ss)).1.sequence = s.sequence := by
  have hnveq : numValid s = 2 * maxFaultyNodes s := rfl
  have hsplit : ss = ss.take (2 * maxFaultyNodes s - 1) ++
      ss.drop (2 * maxFaultyNodes s - 1) := (List.take_append_drop _ ss).symm
  have hfl : (ss.take (2 * maxFaultyNodes s - 1)).length = 2 * maxFaultyNodes s - 1 := by
    rw [List.length_take, hlen]
    omega
  have hdl : (ss.drop (2 * maxFaultyNodes s - 1)).length = 2 := by
    rw [List.length_drop, hlen]
    omega
  set front := ss.take (2 * maxFaultyNodes s - 1) with hfront
  set rest := ss.drop (2 * maxFaultyNodes s - 1) with hrest
  rcases hd : rest with _ | ⟨d, rest2⟩
  · rw [hd] at hdl
    cases hdl
  · rw [hd] at hsplit hdl
    have hndsplit : front.Nodup ∧ (d :: rest2).Nodup ∧ front.Disjoint (d :: rest2) := by
      rw [hsplit, List.nodup_append] at hnd
      exact hnd
    have hdnotfront : d ∉ front := by
      intro hdf
      exact hndsplit.2.2 hdf (List.mem_cons_self d rest2)
    have hsubf : ∀ a ∈ front, a ∈ s.validators := by
      intro a ha
      exact hsub a (by rw [hsplit]; exact List.mem_append_left _ ha)
    have hq := processRoundChangeMsgs_noStrong r s.sequence front s hcur rfl hndsplit.1
      hsubf (fun a _ => by rw [hclean]; exact List.not_mem_nil a)
      (fun k hk1 hk2 => by
        rw [hclean, hnveq]
        simp only [List.length_nil]
        rw [hfl] at hk2
        omega)
    obtain ⟨ihc, ihs, ihr, ihv, ihself, ihsend⟩ := hq
    set s1 := (processRoundChangeMsgs s (msgsFor s.sequence r front)).1 with hs1def
    have hsend1 : sendersAt s1.roundMessages r = front := by
      rw [ihsend, hclean]
      rfl
    have hnv1 : numValid s1 = numValid s := by
      unfold numValid maxFaultyNodes
      rw [ihv]
    have hstrong : processRoundChange s1 ⟨s.sequence, r, d⟩ =
        ({ (addRoundMessage s1 ⟨s.sequence, r, d⟩).1 with
            current := .acceptState, round := r }, []) :=
      processRoundChange_strong s1 ⟨s.sequence, r, d⟩ (ihc.trans hcur) ihs.symm
        (by rw [ihv]
            exact hsub d (by rw [hsplit]
                             exact List.mem_append_right _ (List.mem_cons_self d rest2)))
        (by rw [hsend1]; exact hdnotfront)
        (by rw [hsend1, hnv1, hfl, hnveq]; omega)
    have hmsplit : msgsFor s.sequence r ss =
        msgsFor s.sequence r front ++
          (⟨s.sequence, r, d⟩ :: msgsFor s.sequence r rest2) := by
      rw [hsplit]
      simp [msgsFor]
    obtain ⟨hap1, _⟩ :=
      processRoundChangeMsgs_append (msgsFor s.sequence r front) s
        (⟨s.sequence, r, d⟩ :: msgsFor s.sequence r rest2)
    have hrest2 : processRoundChangeMsgs
        ({ (addRoundMessage s1 ⟨s.sequence, r, d⟩).1 with
            current := .acceptState, round := r } : RCState)
        (msgsFor s.sequence r rest2) =
        ({ (addRoundMessage s1 ⟨s.sequence, r, d⟩).1 with
            current := .acceptState, round := r }, []) :=
      processRoundChangeMsgs_notRC _ (fun h => by cases h) _
    rw [hmsplit]
    refine ⟨?_, ?_, ?_⟩
    · rw [hap1, processRoundChangeMsgs_cons, hstrong]
      dsimp only
      rw [hrest2]
    · rw [hap1, processRoundChangeMsgs_cons, hstrong]
      dsimp only
      rw [hrest2]
    · rw [hap1, processRoundChangeMsgs_cons, hstrong]
      dsimp only
      rw [hrest2]
      exact (addRoundMessage_sequence s1 ⟨s.sequence, r, d⟩).trans ihs

/-- C3 counterexample: with four validators (f = 1), f + 1 = 2 distinct
RoundChange messages at round 2 > 1 do not fast-forward-and-broadcast as
the claim states: the second message already completes the strong
certificate, so the node moves to AcceptState at round 2 and broadcasts
no fresh RoundChange (TestTransition_RoundChangeState_CatchupRound
asserts exactly one outgoing message, the entry broadcast). -/
theorem roundChange_weak_at_four_validators :
    maxFaultyNodes ⟨.roundChangeState, 1, 1, 0, [0, 1, 2, 3], []⟩ + 1 = 2 ∧
      (processRoundChangeMsgs ⟨.roundChangeState, 1, 1, 0, [0, 1, 2, 3], []⟩
        (msgsFor 1 2 [1, 2])).2 = [] ∧
      (processRoundChangeMsgs ⟨.roundChangeState, 1, 1, 0, [0, 1, 2, 3], []⟩
        (msgsFor 1 2 [1, 2])).1.current = .acceptState := by
  refine ⟨by decide, by decide, by decide⟩

/-- Witness for C3 with seven validators (f = 2): three distinct
messages at round 2 fast-forward and broadcast one fresh RoundChange,
two do not. -/
theorem roundChange_weak_certificate_witness :
    ((processRoundChangeMsgs ⟨.roundChangeState, 1, 1, 0, [0, 1, 2, 3, 4, 5, 6], []⟩
          (msgsFor 1 2 [1, 2, 3])).1.current = .roundChangeState ∧
        (processRoundChangeMsgs ⟨.roundChangeState, 1, 1, 0, [0, 1, 2, 3, 4, 5, 6], []⟩
          (msgsFor 1 2 [1, 2, 3])).1.round = 2 ∧
        (processRoundChangeMsgs ⟨.roundChangeState, 1, 1, 0, [0, 1, 2, 3, 4, 5, 6], []⟩
          (msgsFor 1 2 [1, 2, 3])).1.sequence = 1 ∧
        (processRoundChangeMsgs ⟨.roundChangeState, 1, 1, 0, [0, 1, 2, 3, 4, 5, 6], []⟩
          (msgsFor 1 2 [1, 2, 3])).2 = [⟨1, 2, 0⟩]) ∧
      ((processRoundChangeMsgs ⟨.roundChangeState, 1, 1, 0, [0, 1, 2, 3, 4, 5, 6], []⟩
          (msgsFor 1 2 [1, 2])).1.current = .roundChangeState ∧
        (processRoundChangeMsgs ⟨.roundChangeState, 1, 1, 0, [0, 1, 2, 3, 4, 5, 6], []⟩
          (msgsFor 1 2 [1, 2])).1.round = 1 ∧
        (processRoundChangeMsgs ⟨.roundChangeState, 1, 1, 0, [0, 1, 2, 3, 4, 5, 6], []⟩
          (msgsFor 1 2 [1, 2])).2 = []) := by
  constructor
  · exact (roundChange_weak_certificate ⟨.roundChangeState, 1, 1, 0, [0, 1, 2, 3, 4, 5, 6], []⟩
      2 [1, 2, 3] rfl (by decide) (by decide) rfl (by decide)).1 (by decide) (by decide)
  · exact (roundChange_weak_certificate ⟨.roundChangeState, 1, 1, 0, [0, 1, 2, 3, 4, 5, 6], []⟩
      2 [1, 2] rfl (by decide) (by decide) rfl (by decide)).2 (by decide)

/-- C4 counterexample: with three validators f = 0, so Q = 2f + 1 = 1;
but the strong-certificate count of messages from other validators
(2f = 0) is matched with equality and can never be reached, so the
single message triggers only the weak fast-forward and the node stays in
RoundChangeState instead of moving to AcceptState. -/
theorem roundChange_strong_unreachable_small :
    2 * maxFaultyNodes ⟨.roundChangeState, 1, 1, 0, [0, 1, 2], []⟩ + 1 = 1 ∧
      (processRoundChangeMsgs ⟨.roundChangeState, 1, 1, 0, [0, 1, 2], []⟩
        (msgsFor 1 2 [1])).1.current = .roundChangeState ∧
      (processRoundChangeMsgs ⟨.roundChangeState, 1, 1, 0, [0, 1, 2], []⟩
        (msgsFor 1 2 [1])).1.round = 2 := by
  refine ⟨by decide, by decide, by decide⟩

/-- Witness for C4 with four validators (f = 1): 2f + 1 = 3 distinct
messages at round 9 bring the node to AcceptState at round 9 with its
sequence unchanged. -/
theorem roundChange_strong_certificate_witness :
    (processRoundChangeMsgs ⟨.roundChangeState, 5, 0, 0, [0, 1, 2, 3], []⟩
        (msgsFor 5 9 [1, 2, 3])).1.current = .acceptState ∧
      (processRoundChangeMsgs ⟨.roundChangeState, 5, 0, 0, [0, 1, 2, 3], []⟩
        (msgsFor 5 9 [1, 2, 3])).1.round = 9 ∧
      (processRoundChangeMsgs ⟨.roundChangeState, 5, 0, 0, [0, 1, 2, 3], []⟩
        (msgsFor 5 9 [1, 2, 3])).1.sequence = 5 :=
  roundChange_strong_certificate ⟨.roundChangeState, 5, 0, 0, [0, 1, 2, 3], []⟩ 9
    [1, 2, 3] rfl (by decide) (by decide) rfl (by decide) (by decide)

/-- Conformance to TestTransition_RoundChangeState_CatchupRound's
message loop: four validators, local round already bumped to 1 on entry;
the round-2 messages from the three peers reach AcceptState at round 2
with no further outgoing message (the test expects one outgoing message
in total: the entry broadcast). -/
lemma roundChange_conformance_catchup :
    (processRoundChangeMsgs ⟨.roundChangeState, 1, 1, 0, [0, 1, 2, 3], []⟩
        (msgsFor 1 2 [1, 2, 3])).1.current = .acceptState ∧
      (processRoundChangeMsgs ⟨.roundChangeState, 1, 1, 0, [0, 1, 2, 3], []⟩
        (msgsFor 1 2 [1, 2, 3])).1.round = 2 ∧
      (processRoundChangeMsgs ⟨.roundChangeState, 1, 1, 0, [0, 1, 2, 3], []⟩
        (msgsFor 1 2 [1, 2, 3])).2 = [] := by
  refine ⟨by decide, by decide, by decide⟩

/-- Conformance to TestTransition_RoundChangeState_WeakCertificate's
message loop: seven validators, local round 1; the three round-2
messages fast-forward to round 2, stay in RoundChangeState and broadcast
one fresh RoundChange (the test expects two outgoing messages in total:
the entry broadcast plus this one). -/
lemma roundChange_conformance_weak :
    (processRoundChangeMsgs ⟨.roundChangeState, 1, 1, 0, [0, 1, 2, 3, 4, 5, 6], []⟩
        (msgsFor 1 2 [1, 2, 3])).1.current = .roundChangeState ∧
      (processRoundChangeMsgs ⟨.roundChangeState, 1, 1, 0, [0, 1, 2, 3, 4, 5, 6], []⟩
        (msgsFor 1 2 [1, 2, 3])).1.round = 2 ∧
      (processRoundChangeMsgs ⟨.roundChangeState, 1, 1, 0, [0, 1, 2, 3, 4, 5, 6], []⟩
        (msgsFor 1 2 [1, 2, 3])).2 = [⟨1, 2, 0⟩] := by
  refine ⟨by decide, by decide, by decide⟩

/-- C5: when sync stops making progress (best peer's head not newer than
the local head reached after applying the synced blocks) and sealing is
enabled, the node ends with locked = false, the view at sequence =
local head + 1 and round 0, and transitions to AcceptState — so locked
is false at the start of every sequence entered through sync. -/
theorem runSyncState_unlock (sealing : Bool) (s : SyncIbft) (e : SyncEnv)
    (blocks : List Nat) (bestPeerHead : Nat)
    (hseal : sealing = true)
    (hdone : bestPeerHead ≤ (blocks.foldl applyBlock e).localHead) :
    (runSyncState sealing s e blocks bestPeerHead).1.locked = false ∧
      (runSyncState sealing s e blocks bestPeerHead).1.sequence =
        (blocks.foldl applyBlock e).localHead + 1 ∧
      (runSyncState sealing s e blocks bestPeerHead).1.round = 0 ∧
      (runSyncState sealing s e blocks bestPeerHead).1.current = .acceptState := by
  unfold runSyncState
  rw [if_pos ⟨hdone, hseal⟩]
  exact ⟨rfl, rfl, rfl, rfl⟩

/-- Witness for C5, the TestRunSyncState_Unlock_After_Sync scenario:
genesis head 0, blocks 1..3 synced, best peer at 3, node locked and
sealing; the node ends unlocked in AcceptState at sequence 4, round 0. -/
theorem runSyncState_unlock_witness :
    (runSyncState true ⟨.syncState, 1, 0, true⟩ ⟨0, []⟩ [1, 2, 3] 3).1.locked = false ∧
      (runSyncState true ⟨.syncState, 1, 0, true⟩ ⟨0, []⟩ [1, 2, 3] 3).1.sequence = 4 ∧
      (runSyncState true ⟨.syncState, 1, 0, true⟩ ⟨0, []⟩ [1, 2, 3] 3).1.round = 0 ∧
      (runSyncState true ⟨.syncState, 1, 0, true⟩ ⟨0, []⟩ [1, 2, 3] 3).1.current =
        .acceptState :=
  runSyncState_unlock true ⟨.syncState, 1, 0, true⟩ ⟨0, []⟩ [1, 2, 3] 3 rfl (by decide)

/-- Conformance to TestRunSyncState_BulkSyncWithPeer: each synced block
resets the transaction pool with its header, in order. -/
lemma runSyncState_conformance_poolResets :
    (runSyncState true ⟨.syncState, 1, 0, true⟩ ⟨0, []⟩ [1, 2, 3] 3).2.poolResets =
      [1, 2, 3] := by decide

end Dogechain
